import Mathlib

/-!
Verification of the explicit-free-list allocator in `mm.c`
(`kristinnv12/malloclab`), against its natural-language specification.

The heap is modelled at the word level, exactly as the C code sees it when
compiled for the 32-bit malloclab harness: memory is an array of 4-byte
words addressed by byte addresses (all of the allocator's `GET`/`PUT`
accesses are 4-aligned; the single `memcpy` moves a multiple of 8 bytes
between 8-aligned pointers, hence whole words).  `mem_sbrk` is modelled by
a break pointer plus a capacity limit, returning `(void * ) - 1` on
exhaustion, as memlib does.  Reads and writes outside the heap region
(in particular the reads through a null block pointer that `mm_free` /
`mm_realloc` perform when handed `NULL`) are undefined behaviour in C and
are modelled as a fault (`none` / `RR.fault`).
-/

set_option linter.all false

namespace MM

/-- Sequencing of fallible heap operations (`Option.bind`, kept as its own
definition). -/
def obind {α β : Type} (x : Option α) (k : α → Option β) : Option β :=
  match x with
  | none => none
  | some v => k v

/-- `WSIZE` = 4, `REQSIZE` = `OVERHEAD` = `ALIGNMENT` = 8, `CHUNKSIZE` = 1<<12. -/
def CHUNKSIZE : Nat := 4096

/-- Lowest heap address handed out by the region provider (`mem_heap_lo`);
8-aligned, nonzero so that address 0 (`NULL`) is never a heap address. -/
def BASE : Nat := 8

/-- The value `(void * ) - 1` that `mem_sbrk` returns on failure, as a
32-bit pointer. -/
def NEG1 : Nat := 2 ^ 32 - 1

/-- Machine state of the allocator: word memory (indexed by byte-address/4),
the current break, the region capacity, and the two globals
`heap_start` and `free_startp` (0 encodes `NULL`). -/
structure Heap where
  mem : Nat → Nat
  brk : Nat
  limit : Nat
  heap_start : Nat
  free_startp : Nat

/-- The pristine state before `mm_init`: an empty region starting at `BASE`. -/
def initialHeap (limit : Nat) : Heap :=
  { mem := fun _ => 0, brk := BASE, limit := limit, heap_start := 0, free_startp := 0 }

/-- `mem_sbrk(n)`: grow the break by `n` bytes and return the old break,
or `(void * ) - 1` when the region provider refuses. -/
def mem_sbrk (h : Heap) (n : Nat) : Nat × Heap :=
  if h.brk + n ≤ h.limit then (h.brk, { h with brk := h.brk + n }) else (NEG1, h)

/-- `GET(p)`: read the 4-byte word at byte address `p`.  Faults (UB) unless
`p` is word-aligned and inside the current heap `[BASE, brk)`. -/
def readW (h : Heap) (a : Nat) : Option Nat :=
  if a % 4 = 0 ∧ BASE ≤ a ∧ a + 4 ≤ h.brk then some (h.mem (a / 4)) else none

/-- `PUT(p, val)`: write the 4-byte word at byte address `p`, with the same
validity requirements as `readW`. -/
def writeW (h : Heap) (a v : Nat) : Option Heap :=
  if a % 4 = 0 ∧ BASE ≤ a ∧ a + 4 ≤ h.brk then
    some { h with mem := fun i => if i = a / 4 then v else h.mem i }
  else none

/-- `GET_SIZE(p)` = `GET(p) & ~0x7`: clearing the low three bits of a
32-bit word is rounding down to a multiple of 8. -/
def GET_SIZE (v : Nat) : Nat := v - v % 8

/-- `GET_ALLOC(p)` = `GET(p) & 0x1`. -/
def GET_ALLOC (v : Nat) : Nat := v % 2

/-- `PACK(size, alloc)` = `size | alloc`; the allocator only ever packs an
8-aligned size with a flag 0 or 1, for which bitwise-or is addition. -/
def PACK (s a : Nat) : Nat := s + a

/-- `HDRP(bp)` = `bp - WSIZE`.  (For `bp = NULL` the C address `NULL - 4`
is outside the heap, as is the truncated `Nat` value 0 here: both fault.) -/
def HDRP (bp : Nat) : Nat := bp - 4

/-- `NEXT_PTR(bp)` = `bp`: the forward link word of a free block. -/
def NEXT_PTR (bp : Nat) : Nat := bp

/-- `PREV_PTR(bp)` = `bp + WSIZE`: the back link word of a free block. -/
def PREV_PTR (bp : Nat) : Nat := bp + 4

/-- `FTRP(bp)` = `bp + GET_SIZE(HDRP(bp)) - REQSIZE` (reads the header). -/
def FTRP (h : Heap) (bp : Nat) : Option Nat :=
  obind (readW h (HDRP bp)) fun hv =>
  some (bp + GET_SIZE hv - 8)

/-- `NEXT_BLKP(bp)` = `bp + GET_SIZE(bp - WSIZE)`. -/
def NEXT_BLKP (h : Heap) (bp : Nat) : Option Nat :=
  obind (readW h (HDRP bp)) fun hv =>
  some (bp + GET_SIZE hv)

/-- `PREV_BLKP(bp)` = `bp - GET_SIZE(bp - REQSIZE)` (reads the preceding
block's footer). -/
def PREV_BLKP (h : Heap) (bp : Nat) : Option Nat :=
  obind (readW h (bp - 8)) fun fv =>
  some (bp - GET_SIZE fv)

/-- 32-bit `size_t` subtraction (used for `block_remainder` in `place`,
whose C operands are `size_t`). -/
def subW (a b : Nat) : Nat := (a + (2 ^ 32 - b % 2 ^ 32)) % 2 ^ 32

/-- `mm_insert(block)`: LIFO insertion at the head of the free list. -/
def mm_insert (h : Heap) (block : Nat) : Option Heap :=
  obind (writeW h (PREV_PTR block) 0) fun h =>
  if h.free_startp = 0 then
    obind (writeW h (NEXT_PTR block) 0) fun h =>
    some { h with free_startp := block }
  else
    obind (writeW h (PREV_PTR h.free_startp) block) fun h =>
    obind (writeW h (NEXT_PTR block) h.free_startp) fun h =>
    some { h with free_startp := block }

/-- `mm_delete(block)`: splice a block out of the free list (four cases,
transcribed in the source's order). -/
def mm_delete (h : Heap) (block : Nat) : Option Heap :=
  obind (readW h (NEXT_PTR block)) fun next =>
  obind (readW h (PREV_PTR block)) fun prev =>
  if next = 0 ∧ prev ≠ 0 then
    writeW h (NEXT_PTR prev) next
  else if prev = 0 ∧ next ≠ 0 then
    obind (writeW h (PREV_PTR next) prev) fun h =>
    some { h with free_startp := next }
  else if prev = 0 ∧ next = 0 then
    some { h with free_startp := 0 }
  else if prev ≠ 0 ∧ next ≠ 0 then
    obind (writeW h (NEXT_PTR prev) next) fun h =>
    writeW h (PREV_PTR next) prev
  else
    some h

/-- `place(alloc_ptr, size_needed)`: carve `size_needed` bytes out of the
block at `alloc_ptr`, splitting iff the remainder is at least
`REQSIZE + OVERHEAD` = 16 bytes. -/
def place (h : Heap) (alloc_ptr : Nat) (size_needed : Nat) : Option Heap :=
  obind (readW h (HDRP alloc_ptr)) fun hv =>
  let block_size := GET_SIZE hv
  let block_remainder := subW block_size size_needed
  obind (if GET_ALLOC hv = 0 then mm_delete h alloc_ptr else some h) fun h =>
  if block_remainder ≥ 16 then
    obind (writeW h (HDRP alloc_ptr) (PACK size_needed 1)) fun h =>
    obind (FTRP h alloc_ptr) fun f =>
    obind (writeW h f (PACK size_needed 1)) fun h =>
    obind (NEXT_BLKP h alloc_ptr) fun np =>
    obind (writeW h (HDRP np) (PACK block_remainder 0)) fun h =>
    obind (FTRP h np) fun f2 =>
    obind (writeW h f2 (PACK block_remainder 0)) fun h =>
    mm_insert h np
  else
    obind (writeW h (HDRP alloc_ptr) (PACK block_size 1)) fun h =>
    obind (FTRP h alloc_ptr) fun f =>
    writeW h f (PACK block_size 1)

/-- One step of `scan_for_free`'s loop over the explicit free list.  The
fuel only runs out on a cyclic (corrupted) list, where the C loop would
not terminate; that is modelled as a fault. -/
def scanLoop (h : Heap) (reqsize : Nat) : Nat → Nat → Option Nat
  | 0, _ => none
  | fuel + 1, curr =>
    if curr = 0 then some 0
    else
      obind (readW h (HDRP curr)) fun hv =>
      if reqsize ≤ GET_SIZE hv then some curr
      else
        obind (readW h (NEXT_PTR curr)) fun nx =>
        scanLoop h reqsize fuel nx

/-- `scan_for_free(reqsize)`: first fit over the free list; returns `NULL`
(0) when nothing fits. -/
def scan_for_free (h : Heap) (reqsize : Nat) : Option Nat :=
  scanLoop h reqsize h.brk h.free_startp

/-- Case 1 of `coalesce` (left neighbor allocated, right free): absorb the
next block. -/
def coalesceRight (h : Heap) (middle : Nat) (size : Nat) : Option (Nat × Heap) :=
  obind (NEXT_BLKP h middle) fun nb =>
  obind (mm_delete h nb) fun h =>
  obind (NEXT_BLKP h middle) fun nb2 =>
  obind (readW h (HDRP nb2)) fun nhv2 =>
  let size := size + GET_SIZE nhv2
  obind (writeW h (HDRP middle) (PACK size 0)) fun h =>
  obind (FTRP h middle) fun f =>
  obind (writeW h f (PACK size 0)) fun h =>
  obind (mm_insert h middle) fun h =>
  some (middle, h)

/-- Case 2 of `coalesce` (left free, right allocated): absorb `middle` into
the previous block. -/
def coalesceLeft (h : Heap) (middle : Nat) (size : Nat) : Option (Nat × Heap) :=
  obind (PREV_BLKP h middle) fun pb1 =>
  obind (mm_delete h pb1) fun h =>
  obind (PREV_BLKP h middle) fun pb2 =>
  obind (readW h (HDRP pb2)) fun phv =>
  let size := size + GET_SIZE phv
  obind (PREV_BLKP h middle) fun pb3 =>
  obind (writeW h (HDRP pb3) (PACK size 0)) fun h =>
  obind (FTRP h middle) fun f =>
  obind (writeW h f (PACK size 0)) fun h =>
  obind (PREV_BLKP h middle) fun pb4 =>
  obind (mm_insert h pb4) fun h =>
  some (pb4, h)

/-- Case 4 of `coalesce` (both neighbors free): absorb both. -/
def coalesceBoth (h : Heap) (middle : Nat) (size : Nat) : Option (Nat × Heap) :=
  obind (PREV_BLKP h middle) fun pb1 =>
  obind (mm_delete h pb1) fun h =>
  obind (NEXT_BLKP h middle) fun nb1 =>
  obind (mm_delete h nb1) fun h =>
  obind (PREV_BLKP h middle) fun pb2 =>
  obind (readW h (HDRP pb2)) fun phv =>
  obind (NEXT_BLKP h middle) fun nb2 =>
  obind (FTRP h nb2) fun nf =>
  obind (readW h nf) fun nfv =>
  let size := size + GET_SIZE phv + GET_SIZE nfv
  obind (PREV_BLKP h middle) fun pb3 =>
  obind (writeW h (HDRP pb3) (PACK size 0)) fun h =>
  obind (NEXT_BLKP h middle) fun nb3 =>
  obind (FTRP h nb3) fun nf2 =>
  obind (writeW h nf2 (PACK size 0)) fun h =>
  obind (PREV_BLKP h middle) fun pb4 =>
  obind (mm_insert h pb4) fun h =>
  some (pb4, h)

/-- `coalesce(middle)`: four-case boundary-tag merge, returning the
(possibly moved) block pointer. -/
def coalesce (h : Heap) (middle : Nat) : Option (Nat × Heap) :=
  obind (PREV_BLKP h middle) fun pb =>
  obind (FTRP h pb) fun pf =>
  obind (readW h pf) fun pfv =>
  let left := GET_ALLOC pfv
  obind (NEXT_BLKP h middle) fun nb =>
  obind (readW h (HDRP nb)) fun nhv =>
  let right := GET_ALLOC nhv
  obind (readW h (HDRP middle)) fun mhv =>
  let size := GET_SIZE mhv
  if left ≠ 0 ∧ right ≠ 0 then
    some (middle, h)
  else
    obind (mm_delete h middle) fun h =>
    if left ≠ 0 ∧ right = 0 then
      coalesceRight h middle size
    else if left = 0 ∧ right ≠ 0 then
      coalesceLeft h middle size
    else if left = 0 ∧ right = 0 then
      coalesceBoth h middle size
    else
      obind (mm_insert h middle) fun h =>
      some (middle, h)

/-- `new_free_block(words)`: extend the heap, build the new free block's
boundary tags, move the epilogue, insert and coalesce.  Returns the
(coalesced) block pointer, or `NULL` (0) when `mem_sbrk` refuses. -/
def new_free_block (h : Heap) (words : Nat) : Option (Nat × Heap) :=
  if words < 2 then some (0, h)
  else
    let bytes := if words % 2 ≠ 0 then (words + 1) * 4 else words * 4
    let r := mem_sbrk h bytes
    let nb := r.1
    let h := r.2
    if nb = NEG1 then some (0, h)
    else
      obind (writeW h (HDRP nb) (PACK bytes 0)) fun h =>
      obind (FTRP h nb) fun f =>
      obind (writeW h f (PACK bytes 0)) fun h =>
      obind (NEXT_BLKP h nb) fun nxt =>
      obind (writeW h (HDRP nxt) (PACK 0 1)) fun h =>
      obind (mm_insert h nb) fun h =>
      coalesce h nb

/-- `mm_init()`: lay out pad, prologue and epilogue, then seed the heap
with a `CHUNKSIZE` free block.  Returns the C result (0 ok, -1 failure). -/
def mm_init (h : Heap) : Option (Int × Heap) :=
  let r := mem_sbrk h 16
  let hs := r.1
  let h := r.2
  if hs = 0 then some (-1, h)
  else
    obind (writeW h hs 0) fun h =>
    obind (writeW h (hs + 4) (PACK 8 1)) fun h =>
    obind (writeW h (hs + 8) (PACK 8 1)) fun h =>
    obind (writeW h (hs + 8 + 4) (PACK 0 1)) fun h =>
    let h : Heap := { h with heap_start := hs + 8, free_startp := 0 }
    obind (new_free_block h (CHUNKSIZE / 4)) fun r2 =>
    let h : Heap := { r2.2 with free_startp := r2.1 }
    if h.free_startp = 0 then (some (-1, h) : Option (Int × Heap))
    else some (0, h)

/-- The request-size adjustment performed identically by `mm_malloc` and
`mm_realloc`: `REQSIZE + OVERHEAD` for small requests, otherwise
`REQSIZE * ((size + OVERHEAD + REQSIZE - 1) / REQSIZE)`. -/
def adjustRequest (size : Nat) : Nat :=
  if size ≤ 8 then 8 + 8 else 8 * ((size + 8 + (8 - 1)) / 8)

/-- `mm_malloc(size)`: first fit over the free list, else extend the heap.
Returns `some (bp, h)` with `bp = 0` for a `NULL` result; `none` is a
memory fault. -/
def mm_malloc (h : Heap) (size : Nat) : Option (Nat × Heap) :=
  if size = 0 then some (0, h)
  else
    let adjsize := adjustRequest size
    obind (scan_for_free h adjsize) fun sc =>
    if sc ≠ 0 then
      obind (place h sc adjsize) fun h =>
      some (sc, h)
    else
      let extend_size := max adjsize CHUNKSIZE
      obind (new_free_block h (extend_size / 4)) fun r =>
      let np := r.1
      let h := r.2
      if np = 0 then some (0, h)
      else
        obind (place h np adjsize) fun h =>
        some (np, h)

/-- `mm_free(block)`: clear the tags, LIFO-insert, coalesce. -/
def mm_free (h : Heap) (block : Nat) : Option Heap :=
  obind (readW h (HDRP block)) fun hv =>
  let ptrSize := GET_SIZE hv
  obind (writeW h (HDRP block) (PACK ptrSize 0)) fun h =>
  obind (FTRP h block) fun f =>
  obind (writeW h f (PACK ptrSize 0)) fun h =>
  obind (mm_insert h block) fun h =>
  obind (coalesce h block) fun r =>
  some r.2

/-- Result of `mm_realloc`: a returned pointer with the new heap, a memory
fault (UB), or process termination — the source calls `exit(1)` when its
internal `mm_malloc` returns `NULL`. -/
inductive RR where
  | fault : RR
  | exited : Nat → RR
  | ok : Nat → Heap → RR

/-- Sequencing of a fallible heap operation inside `mm_realloc`: a fault
aborts the call. -/
def orr {α : Type} (x : Option α) (k : α → RR) : RR :=
  match x with
  | none => RR.fault
  | some v => k v

/-- `memcpy(dst, src, n)` for the allocator's only call site, where `n` is
a block size — always a multiple of 8 — and both pointers are 8-aligned:
copies the `n / 4` whole words. -/
def memcpyW (h : Heap) (dst src : Nat) : Nat → Option Heap
  | 0 => some h
  | n + 1 =>
    obind (memcpyW h dst src n) fun h =>
    obind (readW h (src + 4 * n)) fun v =>
    writeW h (dst + 4 * n) v

/-- The grow-into-free-right-neighbor path of `mm_realloc` when the tail
remainder is big enough to split off: resize `ptr`, build the remainder
block, insert it, and return `PREV_BLKP` of the advanced pointer. -/
def reallocGrowSplit (h : Heap) (ptr nbp size right_remainder : Nat) : RR :=
  orr (mm_delete h nbp) fun h =>
  orr (writeW h (HDRP ptr) (PACK size 1)) fun h =>
  orr (FTRP h ptr) fun f =>
  orr (writeW h f (PACK size 1)) fun h =>
  orr (NEXT_BLKP h ptr) fun ptr2 =>
  orr (writeW h (HDRP ptr2) (PACK right_remainder 0)) fun h =>
  orr (FTRP h ptr2) fun f2 =>
  orr (writeW h f2 (PACK right_remainder 0)) fun h =>
  orr (mm_insert h ptr2) fun h =>
  orr (PREV_BLKP h ptr2) fun res =>
  RR.ok res h

/-- The grow path of `mm_realloc` when the whole right neighbor is used. -/
def reallocGrowWhole (h : Heap) (ptr nbp new_size : Nat) : RR :=
  orr (mm_delete h nbp) fun h =>
  orr (writeW h (HDRP ptr) (PACK new_size 1)) fun h =>
  orr (FTRP h ptr) fun f =>
  orr (writeW h f (PACK new_size 1)) fun h =>
  RR.ok ptr h

/-- The fallback path of `mm_realloc`: `mm_malloc` the adjusted size —
calling `exit(1)` if that returns `NULL` — then `memcpy` `copySize` bytes
and free the old block. -/
def reallocFallback (h : Heap) (ptr size copySize : Nat) : RR :=
  orr (mm_malloc h size) fun r =>
  let newptr := r.1
  let h := r.2
  if newptr = 0 then RR.exited 1
  else
    orr (memcpyW h newptr ptr (copySize / 4)) fun h =>
    orr (mm_free h ptr) fun h =>
    RR.ok newptr h

/-- `mm_realloc(ptr, size)`, fast paths in the source's order: equal raw
size, `size == 0`, shrink (strictly smaller adjusted size), grow into a
strictly larger free right neighbor, else malloc-copy-free. -/
def mm_realloc (h : Heap) (ptr : Nat) (size : Nat) : RR :=
  orr (readW h (HDRP ptr)) fun hv =>
  let copySize := GET_SIZE hv
  if copySize = size then RR.ok ptr h
  else if size = 0 then
    orr (mm_free h ptr) fun h =>
    RR.ok 0 h
  else
    let size := adjustRequest size
    if size < copySize then
      orr (place h ptr size) fun h =>
      RR.ok ptr h
    else
      orr (NEXT_BLKP h ptr) fun nbp =>
      orr (readW h (HDRP nbp)) fun nv =>
      let right := GET_ALLOC nv
      let new_size := GET_SIZE nv + copySize
      if right = 0 ∧ new_size > size ∧ GET_SIZE nv ≠ 0 then
        let right_remainder := new_size - size
        if right_remainder ≥ 16 then
          reallocGrowSplit h ptr nbp size right_remainder
        else
          reallocGrowWhole h ptr nbp new_size
      else
        reallocFallback h ptr size copySize

/-- Pointer returned by `mm_malloc`, ignoring the heap. -/
def mallocFst (h : Heap) (size : Nat) : Option Nat :=
  obind (mm_malloc h size) fun r => some r.1

/-- Pointer result of a completed `mm_realloc` call (`none` when the call
faulted or exited). -/
def reallocRet (h : Heap) (ptr size : Nat) : Option Nat :=
  match mm_realloc h ptr size with
  | RR.ok q _ => some q
  | _ => none

/-- Exit code of an `mm_realloc` call that terminated the process. -/
def reallocExit (h : Heap) (ptr size : Nat) : Option Nat :=
  match mm_realloc h ptr size with
  | RR.exited c => some c
  | _ => none

/-- Heap walk in the style of the source's `mm_checkheap`: collect
`(payload, size, alloc)` for every block from the first real block up to
the epilogue (header size 0).  Faults (`none`) on an unreadable header;
the fuel `h.brk` is ample since every block is at least 8 bytes. -/
def walkB (h : Heap) : Nat → Nat → Option (List (Nat × Nat × Nat))
  | 0, _ => none
  | fuel + 1, a =>
    obind (readW h (HDRP a)) fun w =>
    if GET_SIZE w = 0 then some []
    else
      obind (walkB h fuel (a + GET_SIZE w)) fun rest =>
      some ((a, GET_SIZE w, GET_ALLOC w) :: rest)

/-- Does a block list contain two physically adjacent blocks that are both
free? -/
def hasAdjFreePair : List (Nat × Nat × Nat) → Bool
  | (_, _, al) :: (a2, s2, al2) :: rest =>
    (al = 0 && al2 = 0) || hasAdjFreePair ((a2, s2, al2) :: rest)
  | _ => false

/-- Coalescing-completeness check: the heap walk succeeds and finds no two
adjacent free blocks. -/
def noAdjCheck (h : Heap) : Bool :=
  match walkB h h.brk (h.heap_start + 8) with
  | some l => !hasAdjFreePair l
  | none => false

/-- Header/footer agreement for every block of a walk result. -/
def hdrFtrList (h : Heap) : List (Nat × Nat × Nat) → Bool
  | [] => true
  | (a, s, _) :: rest =>
    (match readW h (HDRP a), readW h (a + s - 8) with
     | some w1, some w2 => w1 = w2
     | _, _ => false) && hdrFtrList h rest

/-- Header/footer agreement check over the whole heap walk, prologue
included. -/
def hdrFtrCheck (h : Heap) : Bool :=
  (match readW h (HDRP h.heap_start), readW h h.heap_start with
   | some w1, some w2 => w1 = w2
   | _, _ => false) &&
  match walkB h h.brk (h.heap_start + 8) with
  | some l => hdrFtrList h l
  | none => false

/-- Observation for the coalescing claim: run `mm_realloc` and report
whether the resulting heap still has no two adjacent free blocks. -/
def reallocNoAdj (h : Heap) (ptr size : Nat) : Option Bool :=
  match mm_realloc h ptr size with
  | RR.ok _ h2 => some (noAdjCheck h2)
  | _ => none

/-- Byte read, little-endian within each 32-bit word. -/
def readByte (h : Heap) (a : Nat) : Option Nat :=
  obind (readW h (a - a % 4)) fun w =>
  some (w / 256 ^ (a % 4) % 256)

/-- Heap produced by `mm_init` on an ample region (the `getD` defaults are
never taken; the traces are evaluated by `decide`/`rfl` in the theorems). -/
def hBig : Heap := ((mm_init (initialHeap 100000)).getD (0, initialHeap 0)).2

/-- `hBig` after `p1 = mm_malloc(24)` (`p1 = 24`, block size 32). -/
def hM1 : Heap := ((mm_malloc hBig 24).getD (0, hBig)).2

/-- `hM1` after `p2 = mm_malloc(24)` (`p2 = 56`). -/
def hM2 : Heap := ((mm_malloc hM1 24).getD (0, hM1)).2

/-- `hM2` after `p3 = mm_malloc(24)` (`p3 = 88`). -/
def hM3 : Heap := ((mm_malloc hM2 24).getD (0, hM2)).2

/-- `hM3` after `mm_free(p2)`: a lone 32-byte free block at 56 between the
allocated blocks at 24 and 88. -/
def hF2 : Heap := (mm_free hM3 56).getD hM3

/-- `hBig` after `q1 = mm_malloc(100)` (`q1 = 24`, block size 112). -/
def hN1 : Heap := ((mm_malloc hBig 100).getD (0, hBig)).2

/-- `hN1` after `q2 = mm_malloc(24)` (`q2 = 136`). -/
def hN2 : Heap := ((mm_malloc hN1 24).getD (0, hN1)).2

/-- `hN2` after `mm_free(q2)`: the freed block coalesces with the
wilderness, leaving `[24 : 112 alloc][136 : 3984 free]`. -/
def hN3 : Heap := (mm_free hN2 136).getD hN2

/-- Heap initialised on a region of exactly 4120 bytes: `mm_init` consumes
it all, so any further `mem_sbrk` fails. -/
def hT0 : Heap := ((mm_init (initialHeap 4120)).getD (0, initialHeap 0)).2

/-- `hT0` after `mm_malloc(4088)`, which consumes the whole 4096-byte free
block exactly: the free list is now empty and the region is exhausted. -/
def hT1 : Heap := ((mm_malloc hT0 4088).getD (0, hT0)).2

/-- Hand-laid-out minimal heap: prologue, one allocated 24-byte block at
payload 24 (with recognisable payload words), epilogue at 44, break 48,
empty free list.  The region is exhausted (`limit = brk`). -/
def hW : Heap :=
  { mem := fun i =>
      if i = 3 then 9 else if i = 4 then 9
      else if i = 5 then 25
      else if i = 6 then 305419896 else if i = 7 then 2596069104
      else if i = 8 then 43962 else if i = 9 then 3735928559
      else if i = 10 then 25 else if i = 11 then 1 else 0,
    brk := 48, limit := 48, heap_start := 16, free_startp := 0 }

/-- Hand-laid-out heap with an allocated 16-byte block at 24 followed by a
free 24-byte block at 40 (the only free-list node), epilogue at 60,
break 64. -/
def hV : Heap :=
  { mem := fun i =>
      if i = 3 then 9 else if i = 4 then 9
      else if i = 5 then 17 else if i = 8 then 17
      else if i = 9 then 24 else if i = 14 then 24
      else if i = 15 then 1 else 0,
    brk := 64, limit := 64, heap_start := 16, free_startp := 40 }

/-- One block of the heap walk: payload address, size (bytes), allocated
bit. -/
structure Blk where
  addr : Nat
  size : Nat
  alloc : Nat
deriving DecidableEq

/-- `seg h a bs e`: starting at payload address `a`, the tagged blocks `bs`
tile the heap up to payload address `e`; every block has identical,
readable header and footer words, an 8-aligned size of at least 16 bytes,
and an 8-aligned payload address. -/
inductive seg (h : Heap) : Nat → List Blk → Nat → Prop
  | nil (a : Nat) : seg h a [] a
  | cons (a w s al : Nat) (bs : List Blk) (e : Nat)
      (hr : readW h (a - 4) = some w)
      (hs : GET_SIZE w = s)
      (hal : GET_ALLOC w = al)
      (h16 : 16 ≤ s)
      (h8 : s % 8 = 0)
      (ha8 : a % 8 = 0)
      (hf : readW h (a + s - 8) = some w)
      (rest : seg h (a + s) bs e) :
      seg h a (⟨a, s, al⟩ :: bs) e

/-- `flChain h r l t`: following `NEXT_PTR` link words from `r` visits
exactly the payload addresses `l` and then reaches `t`; the free list is
`flChain h free_startp fl 0`. -/
def flChain (h : Heap) (r : Nat) : List Nat → Nat → Prop
  | [], t => r = t
  | p :: l, t => r = p ∧ p ≠ 0 ∧ ∃ nx, readW h (NEXT_PTR p) = some nx ∧ flChain h nx l t

/-- `prevOk h v l`: the `PREV_PTR` link word of each node of `l` holds its
predecessor (`v` for the first node). -/
def prevOk (h : Heap) : Nat → List Nat → Prop
  | _, [] => True
  | v, p :: l => readW h (PREV_PTR p) = some v ∧ prevOk h p l

/-- The heap-structure invariant, parametrised by the block list `bs`, the
free list `fl`, and a set `ex` of block addresses that are tagged free but
(transiently, inside an operation) not linked into the free list. -/
structure TiledX (h : Heap) (bs : List Blk) (fl : List Nat) (ex : List Nat) : Prop where
  hs16 : h.heap_start = 16
  brk8 : h.brk % 8 = 0
  brk_lo : 24 ≤ h.brk
  brk32 : h.brk < 2 ^ 32
  prol_h : readW h 12 = some 9
  prol_f : readW h 16 = some 9
  epil : readW h (h.brk - 4) = some 1
  blocks : seg h 24 bs h.brk
  flw : flChain h h.free_startp fl 0
  flprev : prevOk h 0 fl
  flnodup : fl.Nodup
  flmem : ∀ p : Nat, p ∈ fl ↔ ((∃ b : Blk, b ∈ bs ∧ b.alloc = 0 ∧ b.addr = p) ∧ p ∉ ex)

/-- The heap-structure invariant at a public-call boundary: every
free-tagged block is linked. -/
def Tiled (h : Heap) (bs : List Blk) (fl : List Nat) : Prop := TiledX h bs fl []

/-- No two physically adjacent blocks are both free. -/
def noAdjB (bs : List Blk) : Prop :=
  List.Chain' (fun b1 b2 => b1.alloc = 1 ∨ b2.alloc = 1) bs

/-- Full well-formedness: structure plus eager-coalescing invariant. -/
def WFb (h : Heap) (bs : List Blk) (fl : List Nat) : Prop :=
  Tiled h bs fl ∧ noAdjB bs

/-- A heap is well formed when some block list and free list witness it. -/
def WF (h : Heap) : Prop := ∃ bs fl, WFb h bs fl

theorem readW_zero (h : Heap) : readW h 0 = none := by
  simp [readW, BASE]

/-- C3: the specification claims `free(NULL)` is tolerated as a no-op, but
`mm_free` unconditionally reads the header word at `NULL - WSIZE`, an
address outside the heap: the call is undefined behaviour (a fault in the
model) on every heap, never a no-op. -/
theorem free_null_faults : ∀ h : Heap, mm_free h 0 = none := by
  intro h
  simp [mm_free, HDRP, readW_zero, obind]

/-- C2: the specification claims `reallocate(NULL, n)` behaves as
`allocate(n)`, but `mm_realloc` unconditionally reads the header word at
`NULL - WSIZE`: the call faults on every heap and every size, while
`mm_malloc` on the same (initialised) heap succeeds — shown on the
freshly initialised heap `hBig`, where `mm_malloc(1)` returns payload 24. -/
theorem realloc_null_faults :
    (∀ (h : Heap) (n : Nat), mm_realloc h 0 n = RR.fault) ∧
      mallocFst hBig 1 = some 24 := by
  constructor
  · intro h n
    simp [mm_realloc, HDRP, readW_zero, orr]
  · decide

/-- C1 counterexample: on the exhausted heap `hT1` (one live 4096-byte
block at payload 24, empty free list, region spent), `reallocate(24, 5000)`
takes the fallback path, the internal `mm_malloc(5008)` returns `NULL` —
and the call exits the process with status 1 instead of returning `NULL`
to the caller. -/
theorem realloc_alloc_failure_exits_cex :
    mallocFst hT1 5008 = some 0 ∧
      reallocExit hT1 24 5000 = some 1 ∧
      reallocRet hT1 24 5000 = none := by
  refine ⟨by decide, by decide, by decide⟩

/-- C5 counterexample: on `hM2`, payload 24 is a live block of size 32 and
`adjust_request(17) = 32 ≤ 32`, so the claim promises a shrink in place
returning 24 — but the code's shrink test is strict (`size < copySize`)
and the call moves the allocation to payload 88. -/
theorem realloc_shrink_equal_size_moves_cex :
    readW hM2 (HDRP 24) = some (PACK 32 1) ∧
      adjustRequest 17 = 32 ∧
      reallocRet hM2 24 17 = some 88 ∧
      reallocRet hM2 24 17 ≠ some 24 := by
  refine ⟨by decide, by decide, by decide, by decide⟩

/-- C6 counterexample: on `hF2`, payload 24 is a live block of size 32
whose right neighbor at 56 is free with size 32, and
`old_sz + size(next) = 64 ≥ 64 = adjust_request(56)` — the claim promises
an in-place grow returning 24, but the code requires a strict surplus
(`new_size > size`) and moves the allocation to payload 120. -/
theorem realloc_grow_exact_fit_moves_cex :
    readW hF2 (HDRP 24) = some (PACK 32 1) ∧
      readW hF2 (HDRP 56) = some (PACK 32 0) ∧
      adjustRequest 56 = 64 ∧
      reallocRet hF2 24 56 = some 120 ∧
      reallocRet hF2 24 56 ≠ some 24 := by
  refine ⟨by decide, by decide, by decide, by decide, by decide⟩

/-- C4 counterexample: the heap `hN3` (reached by public calls only)
satisfies the no-two-adjacent-free-blocks invariant, but
`reallocate(24, 20)` — a shrink in place that splits off an 80-byte tail
without coalescing it — completes and leaves the tail at 56 physically
adjacent to the free block at 136. -/
theorem realloc_shrink_breaks_coalescing_cex :
    noAdjCheck hN3 = true ∧ reallocNoAdj hN3 24 20 = some false := by
  refine ⟨by decide, by decide⟩

theorem obind_some_eq {α β : Type} (a : α) (k : α → Option β) : obind (some a) k = k a := rfl

theorem orr_some_eq {α : Type} (a : α) (k : α → RR) : orr (some a) k = k a := rfl

theorem orr_none_eq {α : Type} (k : α → RR) : orr (none : Option α) k = RR.fault := rfl

/-- C10: when the raw requested size equals the block's total size as read
from the header (`copySize == size`, the source's first fast path),
`mm_realloc` returns the pointer unchanged and the heap is untouched —
the result carries the input heap itself. -/
theorem realloc_equal_total_size_noop (h : Heap) (p n w : Nat)
    (hr : readW h (HDRP p) = some w) (hsz : GET_SIZE w = n) (_hn : n ≠ 0) :
    mm_realloc h p n = RR.ok p h := by
  rw [mm_realloc, hr, orr_some_eq]
  simp [hsz]

/-- Witness for `realloc_equal_total_size_noop`: on `hW`, whose block at
payload 24 has total size 24 (so available payload 16 < 24),
`reallocate(24, 24)` returns 24 and the very same heap. -/
theorem realloc_equal_total_size_noop_witness :
    mm_realloc hW 24 24 = RR.ok 24 hW :=
  realloc_equal_total_size_noop hW 24 24 (PACK 24 1) (by decide) (by decide) (by decide)

theorem readW_some_of (h : Heap) (a : Nat) (h4 : a % 4 = 0) (hlo : 8 ≤ a)
    (hhi : a + 4 ≤ h.brk) : readW h a = some (h.mem (a / 4)) := by
  simp [readW, BASE, h4, hlo, hhi]

theorem readW_bounds {h : Heap} {a v : Nat} (hr : readW h a = some v) :
    a % 4 = 0 ∧ BASE ≤ a ∧ a + 4 ≤ h.brk := by
  unfold readW at hr
  split at hr
  · assumption
  · exact absurd hr (by simp)

theorem readW_bounds8 {h : Heap} {a v : Nat} (hr : readW h a = some v) :
    a % 4 = 0 ∧ 8 ≤ a ∧ a + 4 ≤ h.brk := by
  have := readW_bounds hr
  simpa [BASE] using this

theorem readW_mem {h : Heap} {a v : Nat} (hr : readW h a = some v) :
    h.mem (a / 4) = v := by
  unfold readW at hr
  split at hr
  · exact Option.some_injective _ hr
  · exact absurd hr (by simp)

theorem writeW_some_of (h : Heap) (a v : Nat) (h4 : a % 4 = 0) (hlo : 8 ≤ a)
    (hhi : a + 4 ≤ h.brk) :
    writeW h a v =
      some { h with mem := fun i => if i = a / 4 then v else h.mem i } := by
  simp [writeW, BASE, h4, hlo, hhi]

theorem writeW_inv {h : Heap} {a v : Nat} {h2 : Heap} (hw : writeW h a v = some h2) :
    a % 4 = 0 ∧ BASE ≤ a ∧ a + 4 ≤ h.brk ∧
      h2 = { h with mem := fun i => if i = a / 4 then v else h.mem i } := by
  unfold writeW at hw
  split at hw
  · rename_i hc
    exact ⟨hc.1, hc.2.1, hc.2.2, (Option.some_injective _ hw).symm⟩
  · exact absurd hw (by simp)

theorem writeW_fields {h : Heap} {a v : Nat} {h2 : Heap} (hw : writeW h a v = some h2) :
    h2.brk = h.brk ∧ h2.limit = h.limit ∧ h2.heap_start = h.heap_start ∧
      h2.free_startp = h.free_startp := by
  obtain ⟨-, -, -, rfl⟩ := writeW_inv hw
  exact ⟨rfl, rfl, rfl, rfl⟩

theorem readW_writeW_self {h : Heap} {a v : Nat} {h2 : Heap}
    (hw : writeW h a v = some h2) : readW h2 a = some v := by
  obtain ⟨h4, hlo, hhi, rfl⟩ := writeW_inv hw
  simp [readW, h4, hlo, hhi]

theorem readW_writeW_ne {h : Heap} {a v : Nat} {h2 : Heap}
    (hw : writeW h a v = some h2) {b : Nat} (hne : b ≠ a) :
    readW h2 b = readW h b := by
  obtain ⟨h4, hlo, hhi, rfl⟩ := writeW_inv hw
  by_cases hb : b % 4 = 0 ∧ BASE ≤ b ∧ b + 4 ≤ h.brk
  · have hd : b / 4 ≠ a / 4 := by omega
    simp [readW, hb, hd]
  · simp [readW, hb]

theorem writeW_some_iff {h : Heap} {a v : Nat} :
    (∃ h2, writeW h a v = some h2) ↔ (a % 4 = 0 ∧ BASE ≤ a ∧ a + 4 ≤ h.brk) := by
  constructor
  · rintro ⟨h2, hw⟩
    obtain ⟨h4, hlo, hhi, -⟩ := writeW_inv hw
    exact ⟨h4, hlo, hhi⟩
  · rintro ⟨h4, hlo, hhi⟩
    exact ⟨_, writeW_some_of h a v h4 hlo hhi⟩

theorem seg_le {h : Heap} {a : Nat} {bs : List Blk} {e : Nat} (hs : seg h a bs e) :
    a ≤ e := by
  induction hs with
  | nil => exact le_rfl
  | cons a w s al bs e hr hsz hal h16 h8 ha8 hf rest ih => omega

theorem seg_mem_bounds {h : Heap} {a : Nat} {bs : List Blk} {e : Nat}
    (hs : seg h a bs e) {b : Blk} (hb : b ∈ bs) :
    a ≤ b.addr ∧ b.addr + b.size ≤ e ∧ 16 ≤ b.size ∧ b.size % 8 = 0 ∧
      b.addr % 8 = 0 := by
  induction hs with
  | nil => cases hb
  | cons a w s al bs e hr hsz hal h16 h8 ha8 hf rest ih =>
    rcases List.mem_cons.mp hb with rfl | hb2
    · have h2 := seg_le rest
      exact ⟨le_rfl, show a + s ≤ e by omega, h16, h8, ha8⟩
    · have := ih hb2
      omega

theorem seg_mem_read {h : Heap} {a : Nat} {bs : List Blk} {e : Nat}
    (hs : seg h a bs e) {b : Blk} (hb : b ∈ bs) :
    ∃ w, readW h (b.addr - 4) = some w ∧ GET_SIZE w = b.size ∧
      GET_ALLOC w = b.alloc ∧ readW h (b.addr + b.size - 8) = some w := by
  induction hs with
  | nil => cases hb
  | cons a w s al bs e hr hsz hal h16 h8 ha8 hf rest ih =>
    rcases List.mem_cons.mp hb with rfl | hb2
    · exact ⟨w, hr, hsz, hal, hf⟩
    · exact ih hb2

theorem seg_append_inv {h : Heap} {a : Nat} {l1 l2 : List Blk} {e : Nat}
    (hs : seg h a (l1 ++ l2) e) :
    ∃ m, seg h a l1 m ∧ seg h m l2 e := by
  induction l1 generalizing a with
  | nil => exact ⟨a, seg.nil a, hs⟩
  | cons b t ih =>
    cases hs with
    | cons a w s al bs e hr hsz hal h16 h8 ha8 hf rest =>
      obtain ⟨m, hm1, hm2⟩ := ih rest
      exact ⟨m, seg.cons a w s al t m hr hsz hal h16 h8 ha8 hf hm1, hm2⟩

theorem seg_append {h : Heap} {a m : Nat} {l1 l2 : List Blk} {e : Nat}
    (h1 : seg h a l1 m) (h2 : seg h m l2 e) : seg h a (l1 ++ l2) e := by
  induction h1 with
  | nil => exact h2
  | cons a w s al bs e1 hr hsz hal h16 h8 ha8 hf rest ih =>
    have hc := seg.cons a w s al (bs ++ l2) e hr hsz hal h16 h8 ha8 hf (ih h2)
    simpa using hc

theorem seg_frame {h h2 : Heap} {a : Nat} {bs : List Blk} {e : Nat}
    (hs : seg h a bs e)
    (hrd : ∀ b : Blk, b ∈ bs →
      readW h2 (b.addr - 4) = readW h (b.addr - 4) ∧
      readW h2 (b.addr + b.size - 8) = readW h (b.addr + b.size - 8)) :
    seg h2 a bs e := by
  induction hs with
  | nil => exact seg.nil _
  | cons a w s al bs e hr hsz hal h16 h8 ha8 hf rest ih =>
    have hx := hrd ⟨a, s, al⟩ (by simp)
    refine seg.cons a w s al bs e ?_ hsz hal h16 h8 ha8 ?_
      (ih fun b hb => hrd b (by simp [hb]))
    · exact hx.1.trans hr
    · exact hx.2.trans hf

theorem seg_writeW_frame {h : Heap} {a : Nat} {bs : List Blk} {e : Nat}
    {x v : Nat} {h2 : Heap} (hs : seg h a bs e) (hw : writeW h x v = some h2)
    (hout : ∀ b : Blk, b ∈ bs → x ≠ b.addr - 4 ∧ x ≠ b.addr + b.size - 8) :
    seg h2 a bs e := by
  refine seg_frame hs fun b hb => ?_
  exact ⟨readW_writeW_ne hw (Ne.symm (hout b hb).1),
    readW_writeW_ne hw (Ne.symm (hout b hb).2)⟩

theorem flChain_nil_iff {h : Heap} {r t : Nat} : flChain h r [] t ↔ r = t := Iff.rfl

theorem flChain_cons_iff {h : Heap} {r p t : Nat} {l : List Nat} :
    flChain h r (p :: l) t ↔
      r = p ∧ p ≠ 0 ∧ ∃ nx, readW h (NEXT_PTR p) = some nx ∧ flChain h nx l t :=
  Iff.rfl

theorem flChain_ne_zero {h : Heap} {r t : Nat} {l : List Nat}
    (hw : flChain h r l t) : ∀ p ∈ l, p ≠ 0 := by
  induction l generalizing r with
  | nil => intro p hp; cases hp
  | cons q s ih =>
    obtain ⟨rfl, hq, nx, hr, rest⟩ := hw
    intro p hp
    rcases List.mem_cons.mp hp with rfl | hp2
    · exact hq
    · exact ih rest p hp2

theorem flChain_frame {h h2 : Heap} {r t : Nat} {l : List Nat}
    (hw : flChain h r l t)
    (hrd : ∀ p ∈ l, readW h2 (NEXT_PTR p) = readW h (NEXT_PTR p)) :
    flChain h2 r l t := by
  induction l generalizing r with
  | nil => exact hw
  | cons q s ih =>
    obtain ⟨rfl, hq, nx, hr, rest⟩ := hw
    exact ⟨rfl, hq, nx, (hrd _ (by simp)).trans hr,
      ih rest fun p hp => hrd p (by simp [hp])⟩

theorem flChain_writeW_frame {h : Heap} {r t : Nat} {l : List Nat} {x v : Nat}
    {h2 : Heap} (hw : flChain h r l t) (hwr : writeW h x v = some h2)
    (hout : ∀ p ∈ l, x ≠ NEXT_PTR p) : flChain h2 r l t :=
  flChain_frame hw fun p hp => readW_writeW_ne hwr (Ne.symm (hout p hp))

theorem flChain_append_inv {h : Heap} {r t : Nat} {l1 l2 : List Nat}
    (hw : flChain h r (l1 ++ l2) t) : ∃ m, flChain h r l1 m ∧ flChain h m l2 t := by
  induction l1 generalizing r with
  | nil => exact ⟨r, rfl, hw⟩
  | cons q s ih =>
    obtain ⟨rfl, hq, nx, hr, rest⟩ := hw
    obtain ⟨m, hm1, hm2⟩ := ih rest
    exact ⟨m, ⟨rfl, hq, nx, hr, hm1⟩, hm2⟩

theorem flChain_append {h : Heap} {r m t : Nat} {l1 l2 : List Nat}
    (h1 : flChain h r l1 m) (h2 : flChain h m l2 t) : flChain h r (l1 ++ l2) t := by
  induction l1 generalizing r with
  | nil => rw [flChain_nil_iff] at h1; subst h1; exact h2
  | cons q s ih =>
    obtain ⟨rfl, hq, nx, hr, rest⟩ := h1
    exact ⟨rfl, hq, nx, hr, ih rest⟩

theorem flChain_head {h : Heap} {r t : Nat} {p : Nat} {l : List Nat}
    (hw : flChain h r (p :: l) t) :
    r = p ∧ p ≠ 0 ∧ readW h (NEXT_PTR p) = some (l.headD t) ∧
      flChain h (l.headD t) l t := by
  obtain ⟨rfl, hq, nx, hr, rest⟩ := hw
  cases l with
  | nil =>
    rw [flChain_nil_iff] at rest
    subst rest
    exact ⟨rfl, hq, by simpa using hr, by simp [flChain_nil_iff]⟩
  | cons b s =>
    obtain ⟨rfl, hb, nx2, hr2, rest2⟩ := rest
    exact ⟨rfl, hq, by simpa using hr, by simpa using ⟨rfl, hb, nx2, hr2, rest2⟩⟩

theorem prevOk_frame {h h2 : Heap} {v : Nat} {l : List Nat} (hp : prevOk h v l)
    (hrd : ∀ p ∈ l, readW h2 (PREV_PTR p) = readW h (PREV_PTR p)) :
    prevOk h2 v l := by
  induction l generalizing v with
  | nil => trivial
  | cons q t ih =>
    obtain ⟨h1, h2x⟩ := hp
    exact ⟨(hrd q (by simp)).trans h1, ih h2x fun p hp2 => hrd p (by simp [hp2])⟩

theorem prevOk_append_inv {h : Heap} {v : Nat} {l1 l2 : List Nat}
    (hp : prevOk h v (l1 ++ l2)) : prevOk h v l1 ∧ prevOk h (l1.getLastD v) l2 := by
  induction l1 generalizing v with
  | nil => exact ⟨trivial, hp⟩
  | cons q t ih =>
    obtain ⟨h1, h2⟩ := hp
    obtain ⟨h3, h4⟩ := ih h2
    refine ⟨⟨h1, h3⟩, ?_⟩
    rw [List.getLastD_cons]
    exact h4

theorem seg_cons_inv {h : Heap} {a : Nat} {b : Blk} {L : List Blk} {e : Nat}
    (hs : seg h a (b :: L) e) :
    b.addr = a ∧ (∃ w, readW h (a - 4) = some w ∧ GET_SIZE w = b.size ∧
      GET_ALLOC w = b.alloc ∧ readW h (a + b.size - 8) = some w) ∧
      16 ≤ b.size ∧ b.size % 8 = 0 ∧ a % 8 = 0 ∧ seg h (a + b.size) L e := by
  cases hs with
  | cons a w s al bs e hr hsz hal h16 h8 ha8 hf rest =>
    exact ⟨rfl, ⟨w, hr, hsz, hal, hf⟩, h16, h8, ha8, rest⟩

theorem TiledX.block_facts {h : Heap} {bs : List Blk} {fl ex : List Nat}
    (ht : TiledX h bs fl ex) {b : Blk} (hb : b ∈ bs) :
    24 ≤ b.addr ∧ b.addr + b.size ≤ h.brk ∧ 16 ≤ b.size ∧ b.size % 8 = 0 ∧
      b.addr % 8 = 0 :=
  seg_mem_bounds ht.blocks hb

theorem TiledX.fl_block {h : Heap} {bs : List Blk} {fl ex : List Nat}
    (ht : TiledX h bs fl ex) {p : Nat} (hp : p ∈ fl) :
    ∃ b : Blk, b ∈ bs ∧ b.alloc = 0 ∧ b.addr = p :=
  ((ht.flmem p).mp hp).1

theorem TiledX.fl_facts {h : Heap} {bs : List Blk} {fl ex : List Nat}
    (ht : TiledX h bs fl ex) {p : Nat} (hp : p ∈ fl) :
    24 ≤ p ∧ p % 8 = 0 ∧ p + 16 ≤ h.brk := by
  obtain ⟨b, hb, -, rfl⟩ := ht.fl_block hp
  have := ht.block_facts hb
  omega

theorem blocks_span_disjoint {h : Heap} {a : Nat} {bs : List Blk} {e : Nat}
    (hs : seg h a bs e) {L1 L2 : List Blk} {bp : Blk}
    (hdec : bs = L1 ++ bp :: L2) {b : Blk} (hb : b ∈ bs) :
    b = bp ∨ b.addr + b.size ≤ bp.addr ∨ bp.addr + bp.size ≤ b.addr := by
  subst hdec
  obtain ⟨m, hm1, hm2⟩ := seg_append_inv hs
  obtain ⟨rfl, -, -, -, -, hrest⟩ := seg_cons_inv hm2
  rcases List.mem_append.mp hb with hb1 | hb2
  · have := seg_mem_bounds hm1 hb1
    have := seg_le hm2
    omega
  · rcases List.mem_cons.mp hb2 with rfl | hb3
    · exact Or.inl rfl
    · have := seg_mem_bounds hrest hb3
      omega

/-- A word that lies strictly inside the payload of some block (link words,
copied payload words) is not the header or footer word of any block. -/
theorem tiled_payload_not_tag {h : Heap} {bs : List Blk} {fl ex : List Nat}
    (ht : TiledX h bs fl ex) {bp : Blk} (hbp : bp ∈ bs) {x : Nat}
    (hx1 : bp.addr ≤ x) (hx2 : x + 12 ≤ bp.addr + bp.size) :
    ∀ b : Blk, b ∈ bs → x ≠ b.addr - 4 ∧ x ≠ b.addr + b.size - 8 := by
  intro b hb
  obtain ⟨L1, L2, hdec⟩ := List.append_of_mem hbp
  have hd := blocks_span_disjoint ht.blocks hdec hb
  have hf1 := ht.block_facts hb
  have hf2 := ht.block_facts hbp
  rcases hd with rfl | hlt | hgt
  · omega
  · omega
  · omega

/-- The link words of a free-list node are not tag words of any block. -/
theorem tiled_fl_not_tag {h : Heap} {bs : List Blk} {fl ex : List Nat}
    (ht : TiledX h bs fl ex) {p : Nat} (hp : p ∈ fl) :
    ∀ b : Blk, b ∈ bs →
      (p ≠ b.addr - 4 ∧ p ≠ b.addr + b.size - 8) ∧
      (p + 4 ≠ b.addr - 4 ∧ p + 4 ≠ b.addr + b.size - 8) := by
  obtain ⟨bp, hbp, -, rfl⟩ := ht.fl_block hp
  have hfac := ht.block_facts hbp
  intro b hb
  exact ⟨tiled_payload_not_tag ht hbp (le_refl _) (by omega) b hb,
    tiled_payload_not_tag ht hbp (by omega) (by omega) b hb⟩

theorem prevOk_append {h : Heap} {v : Nat} {l1 l2 : List Nat}
    (h1 : prevOk h v l1) (h2 : prevOk h (l1.getLastD v) l2) :
    prevOk h v (l1 ++ l2) := by
  induction l1 generalizing v with
  | nil => exact h2
  | cons q t ih =>
    obtain ⟨ha, hb⟩ := h1
    rw [List.getLastD_cons] at h2
    exact ⟨ha, ih hb h2⟩

/-- Rebuilding the heap-structure invariant after an operation that only
wrote link words of free-list nodes (and possibly moved the list head):
the block structure, prologue and epilogue are untouched. -/
theorem TiledX.relink {h h2 : Heap} {bs : List Blk} {fl ex fl2 ex2 : List Nat}
    (ht : TiledX h bs fl ex)
    (hbrk : h2.brk = h.brk) (hhs : h2.heap_start = h.heap_start)
    (hfr : ∀ x : Nat, (∀ r ∈ fl, x ≠ r ∧ x ≠ r + 4) → readW h2 x = readW h x)
    (hflw : flChain h2 h2.free_startp fl2 0)
    (hfp : prevOk h2 0 fl2) (hnd : fl2.Nodup)
    (hfm : ∀ p : Nat, p ∈ fl2 ↔ ((∃ b : Blk, b ∈ bs ∧ b.alloc = 0 ∧ b.addr = p) ∧ p ∉ ex2)) :
    TiledX h2 bs fl2 ex2 := by
  have hfl24 : ∀ r ∈ fl, 24 ≤ r ∧ r % 8 = 0 ∧ r + 16 ≤ h.brk := fun r hr => ht.fl_facts hr
  refine ⟨hhs ▸ ht.hs16, hbrk ▸ ht.brk8, hbrk ▸ ht.brk_lo, hbrk ▸ ht.brk32, ?_, ?_, ?_, ?_, hflw, hfp, hnd, hfm⟩
  · exact (hfr 12 fun r hr => by have := hfl24 r hr; omega).trans ht.prol_h ▸ rfl
  · exact (hfr 16 fun r hr => by have := hfl24 r hr; omega).trans ht.prol_f ▸ rfl
  · rw [hbrk]
    exact (hfr (h.brk - 4) fun r hr => by
      have := hfl24 r hr
      have := ht.brk_lo
      omega).trans ht.epil ▸ rfl
  · rw [hbrk]
    refine seg_frame ht.blocks fun b hb => ?_
    constructor
    · exact hfr (b.addr - 4) fun r hr => by
        have h1 := (tiled_fl_not_tag ht hr b hb).1.1
        have h2 := (tiled_fl_not_tag ht hr b hb).2.1
        exact ⟨Ne.symm h1, Ne.symm h2⟩
    · exact hfr (b.addr + b.size - 8) fun r hr => by
        have h1 := (tiled_fl_not_tag ht hr b hb).1.2
        have h2 := (tiled_fl_not_tag ht hr b hb).2.2
        exact ⟨Ne.symm h1, Ne.symm h2⟩

theorem mm_delete_spec {h : Heap} {bs : List Blk} {fl1 fl2 ex : List Nat} {q : Nat}
    (ht : TiledX h bs (fl1 ++ q :: fl2) ex) :
    ∃ h2, mm_delete h q = some h2 ∧
      h2.brk = h.brk ∧ h2.limit = h.limit ∧ h2.heap_start = h.heap_start ∧
      TiledX h2 bs (fl1 ++ fl2) (q :: ex) ∧
      (∀ x : Nat, (∀ r ∈ fl1 ++ q :: fl2, x ≠ r ∧ x ≠ r + 4) →
        readW h2 x = readW h x) := by
  classical
  have hff : ∀ p ∈ fl1 ++ q :: fl2, 24 ≤ p ∧ p % 8 = 0 ∧ p + 16 ≤ h.brk :=
    fun p hp => ht.fl_facts hp
  have hnz : ∀ p ∈ fl1 ++ q :: fl2, p ≠ 0 := flChain_ne_zero ht.flw
  obtain ⟨hnd1, hnd2, hdisj⟩ := List.nodup_append.mp ht.flnodup
  have hqf1 : q ∉ fl1 := fun hq => hdisj hq (by simp)
  have hqf2 : q ∉ fl2 := (List.nodup_cons.mp hnd2).1
  have hnd2' : fl2.Nodup := (List.nodup_cons.mp hnd2).2
  obtain ⟨m, hc1, hc2⟩ := flChain_append_inv ht.flw
  obtain ⟨hm, hq0, hnext, hcrest⟩ := flChain_head hc2
  rw [hm] at hc1
  clear hm
  obtain ⟨hpOk1, hpOk2⟩ := prevOk_append_inv ht.flprev
  obtain ⟨hprev, hpOkrest⟩ := hpOk2
  simp only [NEXT_PTR, PREV_PTR] at hnext hprev
  have hfm2 : ∀ p : Nat, p ∈ fl1 ++ fl2 ↔
      ((∃ b : Blk, b ∈ bs ∧ b.alloc = 0 ∧ b.addr = p) ∧ p ∉ q :: ex) := by
    intro p
    constructor
    · intro hp
      have hpfull : p ∈ fl1 ++ q :: fl2 := by
        rcases List.mem_append.mp hp with h1 | h2
        · simp [h1]
        · simp [h2]
      have hx := (ht.flmem p).mp hpfull
      refine ⟨hx.1, ?_⟩
      simp only [List.mem_cons]
      rintro (rfl | hpe)
      · rcases List.mem_append.mp hp with h1 | h2
        · exact hqf1 h1
        · exact hqf2 h2
      · exact hx.2 hpe
    · rintro ⟨hb, hpe⟩
      have hfull : p ∈ fl1 ++ q :: fl2 :=
        (ht.flmem p).mpr ⟨hb, fun hx => hpe (by simp [hx])⟩
      rcases List.mem_append.mp hfull with h1 | h2
      · exact List.mem_append.mpr (Or.inl h1)
      · rcases List.mem_cons.mp h2 with rfl | h3
        · exact absurd (by simp) hpe
        · exact List.mem_append.mpr (Or.inr h3)
  have hnd' : (fl1 ++ fl2).Nodup :=
    List.nodup_append.mpr ⟨hnd1, hnd2', fun x hx1 hx2 => hdisj hx1 (by simp [hx2])⟩
  rw [mm_delete]
  simp only [NEXT_PTR, PREV_PTR]
  rw [hnext, obind_some_eq, hprev, obind_some_eq]
  rcases List.eq_nil_or_concat fl1 with rfl | ⟨l1h, a, hfl1⟩
  · rw [flChain_nil_iff] at hc1
    simp only [List.getLastD_nil] at hprev ⊢
    cases fl2 with
    | nil =>
      simp only [List.headD_nil]
      rw [if_neg (by simp), if_neg (by simp), if_pos (by simp)]
      refine ⟨_, rfl, rfl, rfl, rfl, ?_, fun x _ => rfl⟩
      exact TiledX.relink ht rfl rfl (fun x _ => rfl) rfl trivial List.nodup_nil
        (by simpa using hfm2)
    | cons b l2t =>
      have hbm : b ∈ ([] : List Nat) ++ q :: b :: l2t := by simp
      have hbf := hff b hbm
      have hb0 := hnz b hbm
      simp only [List.headD_cons] at hnext hcrest ⊢
      rw [if_neg (by simp [hb0]), if_pos (by simp [hb0])]
      have hwok : writeW h (b + 4) 0 =
          some { h with mem := fun i => if i = (b + 4) / 4 then 0 else h.mem i } :=
        writeW_some_of h (b + 4) 0 (by omega) (by omega) (by omega)
      rw [hwok, obind_some_eq]
      refine ⟨_, rfl, rfl, rfl, rfl, ?_, ?_⟩
      · have hfr : ∀ x : Nat, (∀ r ∈ ([] : List Nat) ++ q :: b :: l2t, x ≠ r ∧ x ≠ r + 4) →
            readW { { h with mem := fun i => if i = (b + 4) / 4 then 0 else h.mem i }
              with free_startp := b } x = readW h x := by
          intro x hx
          exact readW_writeW_ne hwok (by have := hx b hbm; omega)
        refine TiledX.relink ht rfl rfl hfr ?_ ?_ hnd2' (by simpa using hfm2)
        · show flChain _ b (b :: l2t) 0
          refine flChain_frame hcrest fun p hp => ?_
          refine readW_writeW_ne hwok ?_
          have hpf := hff p (by simp [hp])
          simp only [NEXT_PTR]
          omega
        · show prevOk _ 0 (b :: l2t)
          obtain ⟨hpb, hpl2⟩ := hpOkrest
          refine ⟨?_, ?_⟩
          · show readW _ (PREV_PTR b) = some 0
            simpa [PREV_PTR] using readW_writeW_self hwok
          · refine prevOk_frame hpl2 fun p hp => ?_
            refine readW_writeW_ne hwok ?_
            have hpf := hff p (by simp [hp])
            have hpq : p ≠ b := fun he => (List.nodup_cons.mp hnd2').1 (he ▸ hp)
            simp only [PREV_PTR]
            omega
      · intro x hx
        exact readW_writeW_ne hwok (by have := hx b hbm; omega)
  · -- fl1 = l1h ++ [a]
    rw [List.concat_eq_append] at hfl1
    subst hfl1
    have ham : a ∈ (l1h ++ [a]) ++ q :: fl2 := by simp
    have haf := hff a ham
    have ha0 := hnz a ham
    have hgl : (l1h ++ [a]).getLastD 0 = a := List.getLastD_concat _ _ _
    rw [hgl] at hprev ⊢
    have hanl1 : a ∉ l1h := by
      have : (l1h ++ [a]).Nodup := hnd1
      obtain ⟨-, -, hd2⟩ := List.nodup_append.mp this
      intro hx
      exact hd2 hx (by simp)
    obtain ⟨m2, hcl1, hcla⟩ := flChain_append_inv hc1
    obtain ⟨hm2, -, hna, hrest0⟩ := flChain_head hcla
    rw [hm2] at hcl1
    clear hm2
    simp only [List.headD_nil, NEXT_PTR] at hna
    clear hrest0
    cases fl2 with
    | nil =>
      simp only [List.headD_nil] at hnext ⊢
      rw [if_pos (by simp [ha0])]
      have hwok : writeW h a 0 =
          some { h with mem := fun i => if i = a / 4 then 0 else h.mem i } :=
        writeW_some_of h a 0 (by omega) (by omega) (by omega)
      rw [hwok]
      refine ⟨_, rfl, rfl, rfl, rfl, ?_, ?_⟩
      · have hfr : ∀ x : Nat, (∀ r ∈ (l1h ++ [a]) ++ q :: ([] : List Nat), x ≠ r ∧ x ≠ r + 4) →
            readW { h with mem := fun i => if i = a / 4 then 0 else h.mem i } x =
              readW h x := by
          intro x hx
          exact readW_writeW_ne hwok (hx a ham).1
        refine TiledX.relink ht rfl rfl hfr ?_ ?_ (by simpa using hnd')
          (by simpa using hfm2)
        · show flChain _ _ ((l1h ++ [a]) ++ []) 0
          have hch1 : flChain { h with mem := fun i => if i = a / 4 then 0 else h.mem i }
              h.free_startp l1h a := by
            refine flChain_frame hcl1 fun p hp => ?_
            refine readW_writeW_ne hwok ?_
            simp only [NEXT_PTR]
            intro he
            exact hanl1 (he ▸ hp)
          have hcha : flChain { h with mem := fun i => if i = a / 4 then 0 else h.mem i }
              a [a] 0 := by
            refine ⟨rfl, ha0, 0, ?_, rfl⟩
            simpa [NEXT_PTR] using readW_writeW_self hwok
          simpa using flChain_append hch1 hcha
        · show prevOk _ 0 ((l1h ++ [a]) ++ [])
          refine prevOk_frame (by simpa using hpOk1) fun p hp => ?_
          refine readW_writeW_ne hwok ?_
          have hpf := hff p (by simp at hp ⊢; tauto)
          simp only [PREV_PTR]
          omega
      · intro x hx
        exact readW_writeW_ne hwok (hx a ham).1
    | cons b l2t =>
      have hbm : b ∈ (l1h ++ [a]) ++ q :: b :: l2t := by simp
      have hbf := hff b hbm
      have hb0 := hnz b hbm
      have hab : a ≠ b := fun he => hdisj (by simp : a ∈ l1h ++ [a]) (by simp [he])
      simp only [List.headD_cons] at hnext hcrest ⊢
      rw [if_neg (by simp [hb0]), if_neg (by simp [ha0]),
        if_neg (by simp [ha0]), if_pos (by simp [ha0, hb0])]
      have hwok1 : writeW h a b =
          some { h with mem := fun i => if i = a / 4 then b else h.mem i } :=
        writeW_some_of h a b (by omega) (by omega) (by omega)
      set h1 := { h with mem := fun i => if i = a / 4 then b else h.mem i } with h1def
      have hwok2 : writeW h1 (b + 4) a =
          some { h1 with mem := fun i => if i = (b + 4) / 4 then a else h1.mem i } :=
        writeW_some_of h1 (b + 4) a (by omega) (by omega)
          (by show b + 4 + 4 ≤ h.brk; omega)
      rw [hwok1, obind_some_eq, hwok2]
      set h2 := { h1 with mem := fun i => if i = (b + 4) / 4 then a else h1.mem i } with h2def
      have hra : ∀ x : Nat, x ≠ a → x ≠ b + 4 → readW h2 x = readW h x := by
        intro x hx1 hx2
        exact (readW_writeW_ne hwok2 hx2).trans (readW_writeW_ne hwok1 hx1)
      refine ⟨_, rfl, rfl, rfl, rfl, ?_, ?_⟩
      · have hfr : ∀ x : Nat, (∀ r ∈ (l1h ++ [a]) ++ q :: b :: l2t, x ≠ r ∧ x ≠ r + 4) →
            readW h2 x = readW h x := by
          intro x hx
          exact hra x (hx a ham).1 (by have := hx b hbm; omega)
        refine TiledX.relink ht rfl rfl hfr ?_ ?_ (by simpa using hnd')
          (by simpa using hfm2)
        · show flChain _ _ ((l1h ++ [a]) ++ b :: l2t) 0
          have hch1 : flChain h2 h.free_startp l1h a := by
            refine flChain_frame hcl1 fun p hp => ?_
            have hpf := hff p (by simp [hp])
            refine hra p ?_ ?_
            · intro he
              exact hanl1 (he ▸ hp)
            · omega
          have hcha : flChain h2 a [a] b := by
            refine ⟨rfl, ha0, b, ?_, rfl⟩
            show readW h2 a = some b
            exact (readW_writeW_ne hwok2 (by omega)).trans (readW_writeW_self hwok1)
          have hch2 : flChain h2 b (b :: l2t) 0 := by
            refine flChain_frame hcrest fun p hp => ?_
            have hpf := hff p (by simp [hp])
            have hap : a ≠ p := fun he => hdisj (by simp : a ∈ l1h ++ [a]) (by simp [he, hp])
            refine hra p (Ne.symm hap) ?_
            have hpb : p % 8 = 0 := hpf.2.1
            omega
          exact flChain_append (flChain_append hch1 hcha) hch2
        · show prevOk _ 0 ((l1h ++ [a]) ++ b :: l2t)
          have hgl2 : (l1h ++ [a]).getLastD 0 = a := List.getLastD_concat _ _ _
          refine prevOk_append ?_ ?_
          · refine prevOk_frame hpOk1 fun p hp => ?_
            have hpf := hff p (by simp at hp ⊢; tauto)
            have hpb : p ≠ b := fun he => hdisj (by simpa using hp) (by simp [he])
            have : p + 4 ≠ a := by omega
            have : p + 4 ≠ b + 4 := by omega
            simp only [PREV_PTR]
            exact hra (p + 4) (by omega) (by omega)
          · rw [hgl2]
            obtain ⟨hpb2, hpl2⟩ := hpOkrest
            refine ⟨?_, ?_⟩
            · show readW h2 (PREV_PTR b) = some a
              simpa [PREV_PTR] using readW_writeW_self hwok2
            · refine prevOk_frame hpl2 fun p hp => ?_
              have hpf := hff p (by simp [hp])
              have hpb : p ≠ b := fun he => (List.nodup_cons.mp hnd2').1 (he ▸ hp)
              simp only [PREV_PTR]
              exact hra (p + 4) (by omega) (by omega)
      · intro x hx
        exact hra x (hx a ham).1 (by have := hx b hbm; omega)

/-- Rebuilding the heap-structure invariant after writes that change no
block tag word and neither the prologue nor the epilogue. -/
theorem TiledX.relinkT {h h2 : Heap} {bs : List Blk} {fl ex fl2 ex2 : List Nat}
    (ht : TiledX h bs fl ex)
    (hbrk : h2.brk = h.brk) (hhs : h2.heap_start = h.heap_start)
    (htags : ∀ b : Blk, b ∈ bs → readW h2 (b.addr - 4) = readW h (b.addr - 4) ∧
      readW h2 (b.addr + b.size - 8) = readW h (b.addr + b.size - 8))
    (hpr1 : readW h2 12 = readW h 12) (hpr2 : readW h2 16 = readW h 16)
    (hep : readW h2 (h.brk - 4) = readW h (h.brk - 4))
    (hflw : flChain h2 h2.free_startp fl2 0)
    (hfp : prevOk h2 0 fl2) (hnd : fl2.Nodup)
    (hfm : ∀ p : Nat, p ∈ fl2 ↔
      ((∃ b : Blk, b ∈ bs ∧ b.alloc = 0 ∧ b.addr = p) ∧ p ∉ ex2)) :
    TiledX h2 bs fl2 ex2 := by
  refine ⟨hhs ▸ ht.hs16, hbrk ▸ ht.brk8, hbrk ▸ ht.brk_lo, hbrk ▸ ht.brk32,
    hpr1.trans ht.prol_h, hpr2.trans ht.prol_f, ?_, ?_, hflw, hfp, hnd, hfm⟩
  · rw [hbrk]
    exact hep.trans ht.epil
  · rw [hbrk]
    exact seg_frame ht.blocks htags

theorem writeW_ex {h : Heap} {a : Nat} (v : Nat) (h4 : a % 4 = 0) (hlo : 8 ≤ a)
    (hhi : a + 4 ≤ h.brk) : ∃ h2, writeW h a v = some h2 :=
  ⟨_, writeW_some_of h a v h4 hlo hhi⟩

theorem readW_fs (h : Heap) (v x : Nat) :
    readW { h with free_startp := v } x = readW h x := rfl

theorem flChain_fs {h : Heap} {v r t : Nat} {l : List Nat} (hc : flChain h r l t) :
    flChain { h with free_startp := v } r l t :=
  flChain_frame hc fun _ _ => rfl

theorem prevOk_fs {h : Heap} {v w : Nat} {l : List Nat} (hc : prevOk h w l) :
    prevOk { h with free_startp := v } w l :=
  prevOk_frame hc fun _ _ => rfl

theorem mm_insert_spec {h : Heap} {bs : List Blk} {fl ex : List Nat} {p : Nat}
    (ht : TiledX h bs fl (p :: ex))
    (hpb : ∃ b : Blk, b ∈ bs ∧ b.alloc = 0 ∧ b.addr = p)
    (hpex : p ∉ ex) :
    ∃ h2, mm_insert h p = some h2 ∧
      h2.brk = h.brk ∧ h2.limit = h.limit ∧ h2.heap_start = h.heap_start ∧
      h2.free_startp = p ∧
      TiledX h2 bs (p :: fl) ex ∧
      (∀ x : Nat, x ≠ p → x ≠ p + 4 → (∀ r ∈ fl, x ≠ r ∧ x ≠ r + 4) →
        readW h2 x = readW h x) := by
  classical
  obtain ⟨bp, hbp, hbal, hbaddr⟩ := hpb
  have hpf : 24 ≤ p ∧ p + 16 ≤ h.brk ∧ 16 ≤ bp.size ∧ p % 8 = 0 := by
    have := ht.block_facts hbp
    omega
  have hpfl : p ∉ fl := fun hx => ((ht.flmem p).mp hx).2 (by simp)
  have hff : ∀ r ∈ fl, 24 ≤ r ∧ r % 8 = 0 ∧ r + 16 ≤ h.brk :=
    fun r hr => ht.fl_facts hr
  obtain ⟨hA, hw1⟩ := writeW_ex (h := h) (a := p + 4) 0 (by omega) (by omega) (by omega)
  obtain ⟨hAbrk, hAlim, hAhs, hAfs⟩ := writeW_fields hw1
  have hnotag : ∀ x : Nat, p ≤ x → x + 12 ≤ p + bp.size →
      ∀ b : Blk, b ∈ bs → x ≠ b.addr - 4 ∧ x ≠ b.addr + b.size - 8 := by
    intro x hx1 hx2
    exact tiled_payload_not_tag ht hbp (hbaddr ▸ hx1) (by rw [hbaddr]; omega)
  rw [mm_insert]
  simp only [NEXT_PTR, PREV_PTR]
  rw [hw1, obind_some_eq, hAfs]
  by_cases hfs : h.free_startp = 0
  · have hflnil : fl = [] := by
      cases fl with
      | nil => rfl
      | cons c t =>
        have := flChain_head (hfs ▸ ht.flw)
        exact absurd this.1.symm this.2.1
    subst hflnil
    rw [if_pos hfs]
    obtain ⟨hB, hw2⟩ := writeW_ex (h := hA) (a := p) 0 (by omega) (by omega) (by omega)
    obtain ⟨hBbrk, hBlim, hBhs, hBfs⟩ := writeW_fields hw2
    rw [hw2, obind_some_eq]
    have hra : ∀ x : Nat, x ≠ p → x ≠ p + 4 → readW hB x = readW h x := by
      intro x h1 h2
      exact (readW_writeW_ne hw2 h1).trans (readW_writeW_ne hw1 h2)
    refine ⟨_, rfl, hBbrk.trans hAbrk, hBlim.trans hAlim, hBhs.trans hAhs, rfl, ?_,
      fun x h1 h2 _ => (readW_fs hB p x).trans (hra x h1 h2)⟩
    have hbrk2 : ({ hB with free_startp := p } : Heap).brk = h.brk := hBbrk.trans hAbrk
    have hhs2 : ({ hB with free_startp := p } : Heap).heap_start = h.heap_start :=
      hBhs.trans hAhs
    have hraF : ∀ x : Nat, x ≠ p → x ≠ p + 4 →
        readW { hB with free_startp := p } x = readW h x :=
      fun x h1 h2 => (readW_fs hB p x).trans (hra x h1 h2)
    refine TiledX.relinkT ht hbrk2 hhs2 ?_ ?_ ?_ ?_ ?_ ?_ (List.nodup_singleton p) ?_
    · intro b hb
      have hb1 := hnotag p (le_refl p) (by omega) b hb
      have hb2 := hnotag (p + 4) (by omega) (by omega) b hb
      exact ⟨hraF _ (Ne.symm hb1.1) (Ne.symm hb2.1), hraF _ (Ne.symm hb1.2) (Ne.symm hb2.2)⟩
    · exact hraF 12 (by omega) (by omega)
    · exact hraF 16 (by omega) (by omega)
    · exact hraF (h.brk - 4) (by omega) (by omega)
    · show flChain _ p [p] 0
      refine ⟨rfl, by omega, 0, ?_, rfl⟩
      show readW _ (NEXT_PTR p) = some 0
      simp only [NEXT_PTR]
      exact (readW_fs hB p p).trans (readW_writeW_self hw2)
    · show prevOk _ 0 [p]
      refine ⟨?_, trivial⟩
      show readW _ (PREV_PTR p) = some 0
      simp only [PREV_PTR]
      exact (readW_fs hB p (p + 4)).trans
        ((readW_writeW_ne hw2 (by omega)).trans (readW_writeW_self hw1))
    · intro x
      constructor
      · intro hx
        rcases List.mem_singleton.mp hx with rfl
        exact ⟨⟨bp, hbp, hbal, hbaddr⟩, hpex⟩
      · rintro ⟨hb, hxex⟩
        by_cases hxp : x = p
        · simp [hxp]
        · exact absurd ((ht.flmem x).mpr ⟨hb, by simp [hxp, hxex]⟩) (List.not_mem_nil x)
  · obtain ⟨fs, rest, hflc⟩ : ∃ fs rest, fl = fs :: rest := by
      cases fl with
      | nil => exact absurd (ht.flw : h.free_startp = 0) hfs
      | cons c t => exact ⟨c, t, rfl⟩
    subst hflc
    obtain ⟨hfhd, hfs0', hfnext, hfrest⟩ := flChain_head ht.flw
    have hfsm : fs ∈ fs :: rest := by simp
    have hfsf := hff fs hfsm
    have hfsp : fs ≠ p := fun he => hpfl (he ▸ hfsm)
    rw [if_neg hfs, hfhd]
    obtain ⟨hB, hw2⟩ := writeW_ex (h := hA) (a := fs + 4) p (by omega) (by omega)
      (by omega)
    obtain ⟨hBbrk, hBlim, hBhs, hBfs⟩ := writeW_fields hw2
    rw [hw2, obind_some_eq, hBfs, hAfs, hfhd]
    obtain ⟨hC, hw3⟩ := writeW_ex (h := hB) (a := p) fs (by omega) (by omega) (by omega)
    obtain ⟨hCbrk, hClim, hChs, hCfs⟩ := writeW_fields hw3
    rw [hw3, obind_some_eq]
    have hra : ∀ x : Nat, x ≠ p → x ≠ p + 4 → x ≠ fs + 4 → readW hC x = readW h x := by
      intro x h1 h2 h3
      exact ((readW_writeW_ne hw3 h1).trans (readW_writeW_ne hw2 h3)).trans
        (readW_writeW_ne hw1 h2)
    have hraF : ∀ x : Nat, x ≠ p → x ≠ p + 4 → x ≠ fs + 4 →
        readW { hC with free_startp := p } x = readW h x :=
      fun x h1 h2 h3 => (readW_fs hC p x).trans (hra x h1 h2 h3)
    obtain ⟨bfs, hbfs, hbfsal, hbfsaddr⟩ := ht.fl_block hfsm
    have hbfsf := ht.block_facts hbfs
    refine ⟨_, rfl, (hCbrk.trans hBbrk).trans hAbrk, (hClim.trans hBlim).trans hAlim,
      (hChs.trans hBhs).trans hAhs, rfl, ?_, ?_⟩
    swap
    · intro x h1 h2 hr
      exact hraF x h1 h2 (by have := hr fs hfsm; omega)
    have hbrk2 : ({ hC with free_startp := p } : Heap).brk = h.brk :=
      (hCbrk.trans hBbrk).trans hAbrk
    have hhs2 : ({ hC with free_startp := p } : Heap).heap_start = h.heap_start :=
      (hChs.trans hBhs).trans hAhs
    refine TiledX.relinkT ht hbrk2 hhs2 ?_ ?_ ?_ ?_ ?_ ?_ ?_ ?_
    · intro b hb
      have hb1 := hnotag p (le_refl p) (by omega) b hb
      have hb2 := hnotag (p + 4) (by omega) (by omega) b hb
      have hb3 := tiled_payload_not_tag ht hbfs (x := fs + 4)
        (by rw [hbfsaddr]; omega) (by rw [hbfsaddr]; omega) b hb
      exact ⟨hraF _ (Ne.symm hb1.1) (Ne.symm hb2.1) (Ne.symm hb3.1),
        hraF _ (Ne.symm hb1.2) (Ne.symm hb2.2) (Ne.symm hb3.2)⟩
    · exact hraF 12 (by omega) (by omega) (by omega)
    · exact hraF 16 (by omega) (by omega) (by omega)
    · exact hraF (h.brk - 4) (by omega) (by omega) (by omega)
    · show flChain _ p (p :: fs :: rest) 0
      refine ⟨rfl, by omega, fs, ?_, ?_⟩
      · show readW _ (NEXT_PTR p) = some fs
        simp only [NEXT_PTR]
        exact (readW_fs hC p p).trans (readW_writeW_self hw3)
      · have hchold : flChain h fs (fs :: rest) 0 := hfhd ▸ ht.flw
        refine flChain_fs (flChain_frame hchold fun r hr => ?_)
        have hrf := hff r hr
        have hrp : r ≠ p := fun he => hpfl (he ▸ hr)
        simp only [NEXT_PTR]
        exact ((readW_writeW_ne hw3 hrp).trans
          (readW_writeW_ne hw2 (by omega))).trans (readW_writeW_ne hw1 (by omega))
    · show prevOk _ 0 (p :: fs :: rest)
      refine ⟨?_, ?_, ?_⟩
      · show readW _ (PREV_PTR p) = some 0
        simp only [PREV_PTR]
        exact (readW_fs hC p (p + 4)).trans (((readW_writeW_ne hw3 (by omega)).trans
          (readW_writeW_ne hw2 (by omega))).trans (readW_writeW_self hw1))
      · show readW _ (PREV_PTR fs) = some p
        simp only [PREV_PTR]
        exact (readW_fs hC p (fs + 4)).trans ((readW_writeW_ne hw3 (by omega)).trans
          (readW_writeW_self hw2))
      · obtain ⟨hpv1, hpv2⟩ := ht.flprev
        refine prevOk_fs (prevOk_frame hpv2 fun r hr => ?_)
        have hrf := hff r (by simp [hr])
        have hrp : r ≠ p := fun he => hpfl (he ▸ (by simp [hr] : r ∈ fs :: rest))
        have hrfs : r ≠ fs := fun he => (List.nodup_cons.mp ht.flnodup).1 (he ▸ hr)
        simp only [PREV_PTR]
        exact ((readW_writeW_ne hw3 (by omega)).trans
          (readW_writeW_ne hw2 (by omega))).trans (readW_writeW_ne hw1 (by omega))
    · exact List.nodup_cons.mpr ⟨hpfl, ht.flnodup⟩
    · intro x
      constructor
      · intro hx
        rcases List.mem_cons.mp hx with rfl | hx2
        · exact ⟨⟨bp, hbp, hbal, hbaddr⟩, hpex⟩
        · have hq := (ht.flmem x).mp hx2
          exact ⟨hq.1, fun hxe => hq.2 (by simp [hxe])⟩
      · rintro ⟨hb, hxex⟩
        by_cases hxp : x = p
        · simp [hxp]
        · exact List.mem_cons_of_mem p ((ht.flmem x).mpr ⟨hb, by simp [hxp, hxex]⟩)

theorem GET_SIZE_PACK {s a : Nat} (h8 : s % 8 = 0) (ha : a < 8) :
    GET_SIZE (PACK s a) = s := by
  unfold GET_SIZE PACK
  omega

theorem GET_ALLOC_PACK {s a : Nat} (h8 : s % 8 = 0) (ha : a < 2) :
    GET_ALLOC (PACK s a) = a := by
  unfold GET_ALLOC PACK
  omega

theorem subW_of_le {a b : Nat} (hle : b ≤ a) (h32 : a < 2 ^ 32) : subW a b = a - b := by
  unfold subW
  have hb : b % 2 ^ 32 = b := Nat.mod_eq_of_lt (by omega)
  rw [hb]
  have : a + (2 ^ 32 - b) = (a - b) + 2 ^ 32 := by omega
  rw [this, Nat.add_mod_right]
  exact Nat.mod_eq_of_lt (by omega)

/-- Link words of a free-list node other than `p` lie outside the span
`[p - 4, p + s - 4)` of the block at `p`. -/
theorem tiled_span_not_link {h : Heap} {bs1 bs2 : List Blk} {fl ex : List Nat}
    {p s al : Nat} (ht : TiledX h (bs1 ++ ⟨p, s, al⟩ :: bs2) fl ex)
    {r : Nat} (hr : r ∈ fl) (hrp : r ≠ p) {x : Nat}
    (hx1 : p ≤ x + 4) (hx2 : x ≤ p + s - 8) : x ≠ r ∧ x ≠ r + 4 := by
  obtain ⟨br, hbr, -, rfl⟩ := ht.fl_block hr
  have hbrf := ht.block_facts hbr
  have hmid : (⟨p, s, al⟩ : Blk) ∈ bs1 ++ ⟨p, s, al⟩ :: bs2 := by simp
  have hmidf := ht.block_facts hmid
  have hd := blocks_span_disjoint ht.blocks rfl hbr
  rcases hd with he | hlt | hgt
  · exact absurd (congrArg Blk.addr he) hrp
  · simp only at hlt ⊢
    omega
  · simp only at hgt ⊢
    omega

theorem place_tail {hD : Heap} {bs1 bs2 : List Blk} {fl ex : List Nat}
    {p s al sn : Nat}
    (ht : TiledX hD (bs1 ++ ⟨p, s, al⟩ :: bs2) fl ex)
    (hpfl : p ∉ fl)
    (hfm2 : ∀ x : Nat, x ∈ fl ↔
      ((∃ b : Blk, b ∈ bs1 ++ bs2 ∧ b.alloc = 0 ∧ b.addr = x) ∧ x ∉ ex))
    (hsn8 : sn % 8 = 0) (hsn16 : 16 ≤ sn) (hsns : sn ≤ s)
    (hexr : p + sn ∉ ex) :
    ∃ h2,
      (if subW s sn ≥ 16 then
        obind (writeW hD (HDRP p) (PACK sn 1)) fun h =>
        obind (FTRP h p) fun f =>
        obind (writeW h f (PACK sn 1)) fun h =>
        obind (NEXT_BLKP h p) fun np =>
        obind (writeW h (HDRP np) (PACK (subW s sn) 0)) fun h =>
        obind (FTRP h np) fun f2 =>
        obind (writeW h f2 (PACK (subW s sn) 0)) fun h =>
        mm_insert h np
      else
        obind (writeW hD (HDRP p) (PACK s 1)) fun h =>
        obind (FTRP h p) fun f =>
        writeW h f (PACK s 1)) = some h2 ∧
      h2.brk = hD.brk ∧ h2.limit = hD.limit ∧ h2.heap_start = hD.heap_start ∧
      (16 ≤ s - sn →
        TiledX h2 (bs1 ++ (⟨p, sn, 1⟩ : Blk) :: (⟨p + sn, s - sn, 0⟩ : Blk) :: bs2) ((p + sn) :: fl) ex ∧
        h2.free_startp = p + sn) ∧
      (s - sn < 16 →
        TiledX h2 (bs1 ++ ⟨p, s, 1⟩ :: bs2) fl ex ∧
        h2.free_startp = hD.free_startp) ∧
      (∀ x : Nat, (x + 4 ≤ p - 4 ∨ p + s - 4 ≤ x) →
        (∀ r ∈ fl, x ≠ r ∧ x ≠ r + 4) → readW h2 x = readW hD x) ∧
      (∀ x : Nat, x ≠ p - 4 → x ≠ p + sn - 8 → x ≠ p + sn - 4 → x ≠ p + s - 8 →
        x ≠ p + sn → x ≠ p + sn + 4 →
        (∀ r ∈ fl, x ≠ r ∧ x ≠ r + 4) → readW h2 x = readW hD x) := by
  classical
  have hmid : (⟨p, s, al⟩ : Blk) ∈ bs1 ++ ⟨p, s, al⟩ :: bs2 := by simp
  have hmidf := ht.block_facts hmid
  have hp24 : 24 ≤ p := hmidf.1
  have hpend : p + s ≤ hD.brk := hmidf.2.1
  have hs16 : 16 ≤ s := hmidf.2.2.1
  have hs8 : s % 8 = 0 := hmidf.2.2.2.1
  have hp8 : p % 8 = 0 := hmidf.2.2.2.2
  have hbrk32 := ht.brk32
  have hsub : subW s sn = s - sn := subW_of_le hsns (by omega)
  rw [hsub]
  obtain ⟨m, hseg1, hseg2⟩ := seg_append_inv ht.blocks
  have hpm : p = m := seg_cons_inv hseg2 |>.1
  have hrest : seg hD (m + s) bs2 hD.brk := (seg_cons_inv hseg2).2.2.2.2.2
  rw [← hpm] at hseg1 hrest
  have hbs1out : ∀ b : Blk, b ∈ bs1 → b.addr + b.size ≤ p := by
    intro b hb
    have := seg_mem_bounds hseg1 hb
    omega
  have hbs2out : ∀ b : Blk, b ∈ bs2 → p + s ≤ b.addr := by
    intro b hb
    have := seg_mem_bounds hrest hb
    omega
  have hlinkout : ∀ r ∈ fl, ∀ x : Nat, p ≤ x + 4 → x ≤ p + s - 8 → x ≠ r ∧ x ≠ r + 4 := by
    intro r hr x h1 h2
    exact tiled_span_not_link ht hr (fun he => hpfl (he ▸ hr)) h1 h2
  by_cases hsplit : s - sn ≥ 16
  · rw [if_pos hsplit]
    obtain ⟨hA, hw1⟩ := writeW_ex (h := hD) (a := p - 4) (PACK sn 1)
      (by omega) (by omega) (by omega)
    obtain ⟨hAbrk, hAlim, hAhs, hAfs⟩ := writeW_fields hw1
    have hw1v : readW hA (p - 4) = some (PACK sn 1) := readW_writeW_self hw1
    have hHD : HDRP p = p - 4 := rfl
    rw [hHD, hw1, obind_some_eq]
    have hftrA : FTRP hA p = some (p + sn - 8) := by
      rw [FTRP, HDRP, hw1v, obind_some_eq, GET_SIZE_PACK hsn8 (by omega)]
    rw [hftrA, obind_some_eq]
    obtain ⟨hB, hw2⟩ := writeW_ex (h := hA) (a := p + sn - 8) (PACK sn 1)
      (by omega) (by omega) (by omega)
    obtain ⟨hBbrk, hBlim, hBhs, hBfs⟩ := writeW_fields hw2
    rw [hw2, obind_some_eq]
    have hrdB : readW hB (p - 4) = some (PACK sn 1) :=
      (readW_writeW_ne hw2 (by omega)).trans hw1v
    have hnxB : NEXT_BLKP hB p = some (p + sn) := by
      rw [NEXT_BLKP, HDRP, hrdB, obind_some_eq, GET_SIZE_PACK hsn8 (by omega)]
    rw [hnxB, obind_some_eq]
    have hHD2 : HDRP (p + sn) = p + sn - 4 := rfl
    rw [hHD2]
    obtain ⟨hC, hw3⟩ := writeW_ex (h := hB) (a := p + sn - 4) (PACK (s - sn) 0)
      (by omega) (by omega) (by omega)
    obtain ⟨hCbrk, hClim, hChs, hCfs⟩ := writeW_fields hw3
    rw [hw3, obind_some_eq]
    have hrsn8 : (s - sn) % 8 = 0 := by omega
    have hw3v : readW hC (p + sn - 4) = some (PACK (s - sn) 0) := readW_writeW_self hw3
    have hftrC : FTRP hC (p + sn) = some (p + s - 8) := by
      rw [FTRP, HDRP, hw3v, obind_some_eq, GET_SIZE_PACK hrsn8 (by omega)]
      congr 1
      omega
    rw [hftrC, obind_some_eq]
    obtain ⟨hW, hw4⟩ := writeW_ex (h := hC) (a := p + s - 8) (PACK (s - sn) 0)
      (by omega) (by omega) (by omega)
    obtain ⟨hWbrk, hWlim, hWhs, hWfs⟩ := writeW_fields hw4
    rw [hw4, obind_some_eq]
    have hra4 : ∀ x : Nat, x ≠ p - 4 → x ≠ p + sn - 8 → x ≠ p + sn - 4 →
        x ≠ p + s - 8 → readW hW x = readW hD x := by
      intro x h1 h2 h3 h4
      exact (((readW_writeW_ne hw4 h4).trans (readW_writeW_ne hw3 h3)).trans
        (readW_writeW_ne hw2 h2)).trans (readW_writeW_ne hw1 h1)
    have hbrkW : hW.brk = hD.brk := by rw [hWbrk, hCbrk, hBbrk, hAbrk]
    have hhsW : hW.heap_start = hD.heap_start := by rw [hWhs, hChs, hBhs, hAhs]
    have hfsW : hW.free_startp = hD.free_startp := by rw [hWfs, hCfs, hBfs, hAfs]
    have hlimW : hW.limit = hD.limit := by rw [hWlim, hClim, hBlim, hAlim]
    have hrdW_h1 : readW hW (p - 4) = some (PACK sn 1) := by
      rw [readW_writeW_ne hw4 (by omega), readW_writeW_ne hw3 (by omega)]
      exact hrdB
    have hrdW_f1 : readW hW (p + sn - 8) = some (PACK sn 1) := by
      rw [readW_writeW_ne hw4 (by omega), readW_writeW_ne hw3 (by omega)]
      exact readW_writeW_self hw2
    have hrdW_h2 : readW hW (p + sn - 4) = some (PACK (s - sn) 0) := by
      rw [readW_writeW_ne hw4 (by omega)]
      exact hw3v
    have hrdW_f2 : readW hW (p + s - 8) = some (PACK (s - sn) 0) := readW_writeW_self hw4
    have segbs1W : seg hW 24 bs1 p := by
      refine seg_frame hseg1 fun b hb => ?_
      have hbb := seg_mem_bounds hseg1 hb
      exact ⟨hra4 _ (by omega) (by omega) (by omega) (by omega),
        hra4 _ (by omega) (by omega) (by omega) (by omega)⟩
    have segbs2W : seg hW (p + s) bs2 hD.brk := by
      refine seg_frame hrest fun b hb => ?_
      have hbb := seg_mem_bounds hrest hb
      exact ⟨hra4 _ (by omega) (by omega) (by omega) (by omega),
        hra4 _ (by omega) (by omega) (by omega) (by omega)⟩
    have hsegmid : seg hW p ((⟨p, sn, 1⟩ : Blk) :: (⟨p + sn, s - sn, 0⟩ : Blk) :: bs2)
        hD.brk := by
      refine seg.cons p (PACK sn 1) sn 1 _ _ hrdW_h1 (GET_SIZE_PACK hsn8 (by omega))
        (GET_ALLOC_PACK hsn8 (by omega)) hsn16 hsn8 hp8 hrdW_f1 ?_
      refine seg.cons (p + sn) (PACK (s - sn) 0) (s - sn) 0 _ _
        hrdW_h2 (GET_SIZE_PACK hrsn8 (by omega)) (GET_ALLOC_PACK hrsn8 (by omega))
        hsplit hrsn8 (by omega) ?_ ?_
      · have he : p + sn + (s - sn) - 8 = p + s - 8 := by omega
        rw [he]
        exact hrdW_f2
      · have he : p + sn + (s - sn) = p + s := by omega
        rw [he]
        exact segbs2W
    have hflrW : ∀ r ∈ fl, readW hW r = readW hD r := by
      intro r hr
      refine hra4 r ?_ ?_ ?_ ?_
      · exact Ne.symm (hlinkout r hr (p - 4) (by omega) (by omega)).1
      · exact Ne.symm (hlinkout r hr (p + sn - 8) (by omega) (by omega)).1
      · exact Ne.symm (hlinkout r hr (p + sn - 4) (by omega) (by omega)).1
      · exact Ne.symm (hlinkout r hr (p + s - 8) (by omega) (by omega)).1
    have hflr4W : ∀ r ∈ fl, readW hW (r + 4) = readW hD (r + 4) := by
      intro r hr
      refine hra4 (r + 4) ?_ ?_ ?_ ?_
      · exact Ne.symm (hlinkout r hr (p - 4) (by omega) (by omega)).2
      · exact Ne.symm (hlinkout r hr (p + sn - 8) (by omega) (by omega)).2
      · exact Ne.symm (hlinkout r hr (p + sn - 4) (by omega) (by omega)).2
      · exact Ne.symm (hlinkout r hr (p + s - 8) (by omega) (by omega)).2
    have htW : TiledX hW (bs1 ++ (⟨p, sn, 1⟩ : Blk) :: (⟨p + sn, s - sn, 0⟩ : Blk) :: bs2)
        fl ((p + sn) :: ex) := by
      refine ⟨by rw [hhsW]; exact ht.hs16, by rw [hbrkW]; exact ht.brk8,
        by rw [hbrkW]; exact ht.brk_lo, by rw [hbrkW]; exact ht.brk32,
        (hra4 12 (by omega) (by omega) (by omega) (by omega)).trans ht.prol_h,
        (hra4 16 (by omega) (by omega) (by omega) (by omega)).trans ht.prol_f,
        ?_, ?_, ?_, ?_, ht.flnodup, ?_⟩
      · rw [hbrkW]
        exact (hra4 (hD.brk - 4) (by omega) (by omega) (by omega) (by omega)).trans ht.epil
      · rw [hbrkW]
        simpa using seg_append segbs1W hsegmid
      · rw [hfsW]
        exact flChain_frame ht.flw fun r hr => hflrW r hr
      · exact prevOk_frame ht.flprev fun r hr => hflr4W r hr
      · intro x
        rw [hfm2 x]
        constructor
        · rintro ⟨⟨b, hbm, hb0, rfl⟩, hxex⟩
          refine ⟨⟨b, ?_, hb0, rfl⟩, ?_⟩
          · rcases List.mem_append.mp hbm with h1 | h2
            · exact List.mem_append.mpr (Or.inl h1)
            · exact List.mem_append.mpr (Or.inr (by simp [h2]))
          · simp only [List.mem_cons]
            rintro (he | hxe)
            · rcases List.mem_append.mp hbm with h1 | h2
              · have := hbs1out b h1
                omega
              · have := hbs2out b h2
                omega
            · exact hxex hxe
        · rintro ⟨⟨b, hbm, hb0, rfl⟩, hxex⟩
          rcases List.mem_append.mp hbm with h1 | h2
          · exact ⟨⟨b, List.mem_append.mpr (Or.inl h1), hb0, rfl⟩, fun hxe => hxex (by simp [hxe])⟩
          · rcases List.mem_cons.mp h2 with rfl | h3
            · simp at hb0
            · rcases List.mem_cons.mp h3 with rfl | h4
              · exact absurd (List.mem_cons_self (p + sn) ex) (by simpa using hxex)
              · exact ⟨⟨b, List.mem_append.mpr (Or.inr h4), hb0, rfl⟩,
                  fun hxe => hxex (by simp [hxe])⟩
    obtain ⟨h2, hins, hbrk2, hlim2, hhs2, hfs2, htF, hfrI⟩ :=
      mm_insert_spec htW ⟨⟨p + sn, s - sn, 0⟩, by simp, rfl, rfl⟩ hexr
    refine ⟨h2, hins, hbrk2.trans hbrkW, hlim2.trans hlimW, hhs2.trans hhsW,
      fun _ => ⟨htF, hfs2⟩, fun hlt => absurd hsplit (by omega), ?_, ?_⟩
    · intro x hxout hxfl
      have hstep : readW h2 x = readW hW x := by
        refine hfrI x (by omega) (by omega) fun r hr => hxfl r hr
      rw [hstep]
      exact hra4 x (by omega) (by omega) (by omega) (by omega)
    · intro x h1 h2x h3 h4 h5 h6 hxfl
      have hstep : readW h2 x = readW hW x := by
        refine hfrI x h5 h6 fun r hr => hxfl r hr
      rw [hstep]
      exact hra4 x h1 h2x h3 h4
  · rw [if_neg hsplit]
    obtain ⟨hA, hw1⟩ := writeW_ex (h := hD) (a := p - 4) (PACK s 1)
      (by omega) (by omega) (by omega)
    obtain ⟨hAbrk, hAlim, hAhs, hAfs⟩ := writeW_fields hw1
    have hw1v : readW hA (p - 4) = some (PACK s 1) := readW_writeW_self hw1
    have hHD : HDRP p = p - 4 := rfl
    rw [hHD, hw1, obind_some_eq]
    have hftrA : FTRP hA p = some (p + s - 8) := by
      rw [FTRP, HDRP, hw1v, obind_some_eq, GET_SIZE_PACK hs8 (by omega)]
    rw [hftrA, obind_some_eq]
    obtain ⟨hB, hw2⟩ := writeW_ex (h := hA) (a := p + s - 8) (PACK s 1)
      (by omega) (by omega) (by omega)
    obtain ⟨hBbrk, hBlim, hBhs, hBfs⟩ := writeW_fields hw2
    rw [hw2]
    have hra2 : ∀ x : Nat, x ≠ p - 4 → x ≠ p + s - 8 → readW hB x = readW hD x := by
      intro x h1 h2
      exact (readW_writeW_ne hw2 h2).trans (readW_writeW_ne hw1 h1)
    have hbrkB : hB.brk = hD.brk := by rw [hBbrk, hAbrk]
    have hhsB : hB.heap_start = hD.heap_start := by rw [hBhs, hAhs]
    have hfsB : hB.free_startp = hD.free_startp := by rw [hBfs, hAfs]
    have hlimB : hB.limit = hD.limit := by rw [hBlim, hAlim]
    have hrdB_h : readW hB (p - 4) = some (PACK s 1) := by
      rw [readW_writeW_ne hw2 (by omega)]
      exact hw1v
    have hrdB_f : readW hB (p + s - 8) = some (PACK s 1) := readW_writeW_self hw2
    have segbs1B : seg hB 24 bs1 p := by
      refine seg_frame hseg1 fun b hb => ?_
      have hbb := seg_mem_bounds hseg1 hb
      exact ⟨hra2 _ (by omega) (by omega), hra2 _ (by omega) (by omega)⟩
    have segbs2B : seg hB (p + s) bs2 hD.brk := by
      refine seg_frame hrest fun b hb => ?_
      have hbb := seg_mem_bounds hrest hb
      exact ⟨hra2 _ (by omega) (by omega), hra2 _ (by omega) (by omega)⟩
    have hsegmid : seg hB p ((⟨p, s, 1⟩ : Blk) :: bs2) hD.brk :=
      seg.cons p (PACK s 1) s 1 _ _ hrdB_h (GET_SIZE_PACK hs8 (by omega))
        (GET_ALLOC_PACK hs8 (by omega)) hs16 hs8 hp8 hrdB_f segbs2B
    have hflrB : ∀ r ∈ fl, readW hB r = readW hD r := by
      intro r hr
      refine hra2 r ?_ ?_
      · exact Ne.symm (hlinkout r hr (p - 4) (by omega) (by omega)).1
      · exact Ne.symm (hlinkout r hr (p + s - 8) (by omega) (by omega)).1
    have hflr4B : ∀ r ∈ fl, readW hB (r + 4) = readW hD (r + 4) := by
      intro r hr
      refine hra2 (r + 4) ?_ ?_
      · exact Ne.symm (hlinkout r hr (p - 4) (by omega) (by omega)).2
      · exact Ne.symm (hlinkout r hr (p + s - 8) (by omega) (by omega)).2
    have htB : TiledX hB (bs1 ++ (⟨p, s, 1⟩ : Blk) :: bs2) fl ex := by
      refine ⟨by rw [hhsB]; exact ht.hs16, by rw [hbrkB]; exact ht.brk8,
        by rw [hbrkB]; exact ht.brk_lo, by rw [hbrkB]; exact ht.brk32,
        (hra2 12 (by omega) (by omega)).trans ht.prol_h,
        (hra2 16 (by omega) (by omega)).trans ht.prol_f,
        ?_, ?_, ?_, ?_, ht.flnodup, ?_⟩
      · rw [hbrkB]
        exact (hra2 (hD.brk - 4) (by omega) (by omega)).trans ht.epil
      · rw [hbrkB]
        exact seg_append segbs1B hsegmid
      · rw [hfsB]
        exact flChain_frame ht.flw fun r hr => hflrB r hr
      · exact prevOk_frame ht.flprev fun r hr => hflr4B r hr
      · intro x
        rw [hfm2 x]
        constructor
        · rintro ⟨⟨b, hbm, hb0, rfl⟩, hxex⟩
          refine ⟨⟨b, ?_, hb0, rfl⟩, hxex⟩
          rcases List.mem_append.mp hbm with h1 | h2
          · exact List.mem_append.mpr (Or.inl h1)
          · exact List.mem_append.mpr (Or.inr (by simp [h2]))
        · rintro ⟨⟨b, hbm, hb0, rfl⟩, hxex⟩
          rcases List.mem_append.mp hbm with h1 | h2
          · exact ⟨⟨b, List.mem_append.mpr (Or.inl h1), hb0, rfl⟩, hxex⟩
          · rcases List.mem_cons.mp h2 with rfl | h3
            · simp at hb0
            · exact ⟨⟨b, List.mem_append.mpr (Or.inr h3), hb0, rfl⟩, hxex⟩
    refine ⟨hB, rfl, hbrkB, hlimB, hhsB, fun h16 => absurd h16 hsplit,
      fun _ => ⟨htB, hfsB⟩, ?_, ?_⟩
    · intro x hxout hxfl
      exact hra2 x (by omega) (by omega)
    · intro x h1 h2x h3 h4 h5 h6 hxfl
      exact hra2 x h1 h4

theorem tiled_addr_unique {h : Heap} {bs1 bs2 : List Blk} {fl ex : List Nat}
    {mid : Blk} (ht : TiledX h (bs1 ++ mid :: bs2) fl ex) {b : Blk}
    (hb : b ∈ bs1 ++ mid :: bs2) (haddr : b.addr = mid.addr) : b = mid := by
  have hbf := ht.block_facts hb
  have hmf := ht.block_facts (List.mem_append.mpr (Or.inr (by simp)) : mid ∈ bs1 ++ mid :: bs2)
  rcases blocks_span_disjoint ht.blocks rfl hb with he | hlt | hgt
  · exact he
  · omega
  · omega

/-- `place` on a live (allocated) block, as called by the shrink path of
`mm_realloc`: no free-list deletion happens. -/
theorem place_alloc_spec {h : Heap} {bs1 bs2 : List Blk} {fl ex : List Nat}
    {p s sn : Nat}
    (ht : TiledX h (bs1 ++ (⟨p, s, 1⟩ : Blk) :: bs2) fl ex)
    (hsn8 : sn % 8 = 0) (hsn16 : 16 ≤ sn) (hsns : sn ≤ s)
    (hexr : p + sn ∉ ex) :
    ∃ h2, place h p sn = some h2 ∧
      h2.brk = h.brk ∧ h2.limit = h.limit ∧ h2.heap_start = h.heap_start ∧
      (16 ≤ s - sn →
        TiledX h2 (bs1 ++ (⟨p, sn, 1⟩ : Blk) :: (⟨p + sn, s - sn, 0⟩ : Blk) :: bs2)
          ((p + sn) :: fl) ex ∧
        h2.free_startp = p + sn) ∧
      (s - sn < 16 →
        TiledX h2 (bs1 ++ (⟨p, s, 1⟩ : Blk) :: bs2) fl ex ∧
        h2.free_startp = h.free_startp) ∧
      (∀ x : Nat, (x + 4 ≤ p - 4 ∨ p + s - 4 ≤ x) →
        (∀ r ∈ fl, x ≠ r ∧ x ≠ r + 4) → readW h2 x = readW h x) ∧
      (∀ x : Nat, x ≠ p - 4 → x ≠ p + sn - 8 → x ≠ p + sn - 4 → x ≠ p + s - 8 →
        x ≠ p + sn → x ≠ p + sn + 4 →
        (∀ r ∈ fl, x ≠ r ∧ x ≠ r + 4) → readW h2 x = readW h x) := by
  classical
  have hmid : (⟨p, s, 1⟩ : Blk) ∈ bs1 ++ (⟨p, s, 1⟩ : Blk) :: bs2 := by simp
  obtain ⟨w, hrd, hsz, hgal, hfw⟩ := seg_mem_read ht.blocks hmid
  have hrdH : readW h (HDRP p) = some w := hrd
  have hszs : GET_SIZE w = s := hsz
  have hgal1 : GET_ALLOC w = 1 := hgal
  have hpfl : p ∉ fl := by
    intro hx
    obtain ⟨b, hbm, hb0, hba⟩ := ht.fl_block hx
    have := tiled_addr_unique ht hbm hba
    subst this
    cases hb0
  have hfm2 : ∀ x : Nat, x ∈ fl ↔
      ((∃ b : Blk, b ∈ bs1 ++ bs2 ∧ b.alloc = 0 ∧ b.addr = x) ∧ x ∉ ex) := by
    intro x
    rw [ht.flmem x]
    constructor
    · rintro ⟨⟨b, hbm, hb0, rfl⟩, hxex⟩
      rcases List.mem_append.mp hbm with h1 | h2
      · exact ⟨⟨b, List.mem_append.mpr (Or.inl h1), hb0, rfl⟩, by simpa using hxex⟩
      · rcases List.mem_cons.mp h2 with rfl | h3
        · cases hb0
        · exact ⟨⟨b, List.mem_append.mpr (Or.inr h3), hb0, rfl⟩, by simpa using hxex⟩
    · rintro ⟨⟨b, hbm, hb0, rfl⟩, hxex⟩
      refine ⟨⟨b, ?_, hb0, rfl⟩, by simpa using hxex⟩
      rcases List.mem_append.mp hbm with h1 | h2
      · exact List.mem_append.mpr (Or.inl h1)
      · exact List.mem_append.mpr (Or.inr (by simp [h2]))
  rw [place, hrdH, obind_some_eq, hgal1]
  rw [if_neg (by simp), obind_some_eq, hszs]
  exact place_tail ht hpfl hfm2 hsn8 hsn16 hsns hexr

theorem adjustRequest_facts (n : Nat) :
    16 ≤ adjustRequest n ∧ adjustRequest n % 8 = 0 ∧ n + 8 ≤ adjustRequest n := by
  unfold adjustRequest
  split <;> omega

/-- C5 (corrected): the source takes the shrink-in-place path only when the
adjusted size is STRICTLY smaller than the current total block size
(`size < copySize`); under that strict inequality `mm_realloc` returns the
original payload, splits off the tail as a new free block inserted at the
head of the free list exactly when the remainder reaches 16 bytes, and
otherwise keeps the whole block allocated. -/
theorem realloc_shrink_in_place {h : Heap} {bs1 bs2 : List Blk} {fl : List Nat}
    {p cs n : Nat}
    (ht : Tiled h (bs1 ++ (⟨p, cs, 1⟩ : Blk) :: bs2) fl)
    (hn : n ≠ 0) (hlt : adjustRequest n < cs) :
    ∃ h2, mm_realloc h p n = RR.ok p h2 ∧
      (16 ≤ cs - adjustRequest n →
        Tiled h2 (bs1 ++ (⟨p, adjustRequest n, 1⟩ : Blk) ::
          (⟨p + adjustRequest n, cs - adjustRequest n, 0⟩ : Blk) :: bs2)
          ((p + adjustRequest n) :: fl) ∧
        h2.free_startp = p + adjustRequest n) ∧
      (cs - adjustRequest n < 16 →
        Tiled h2 (bs1 ++ (⟨p, cs, 1⟩ : Blk) :: bs2) fl) := by
  classical
  obtain ⟨h16, h8, hn8⟩ := adjustRequest_facts n
  have htX : TiledX h (bs1 ++ (⟨p, cs, 1⟩ : Blk) :: bs2) fl [] := ht
  have hmid : (⟨p, cs, 1⟩ : Blk) ∈ bs1 ++ (⟨p, cs, 1⟩ : Blk) :: bs2 := by simp
  obtain ⟨w, hrd, hsz, hgal, -⟩ := seg_mem_read htX.blocks hmid
  have hrdH : readW h (HDRP p) = some w := hrd
  have hszs : GET_SIZE w = cs := hsz
  obtain ⟨h2, hpl, hbrk, hlim, hhs, hspl, hwh, hfr, hfr2⟩ :=
    place_alloc_spec htX h8 h16 (le_of_lt hlt) (by simp)
  have hre : mm_realloc h p n = orr (place h p (adjustRequest n)) fun h => RR.ok p h := by
    rw [mm_realloc, hrdH, orr_some_eq]
    simp only [hszs]
    rw [if_neg (show ¬ cs = n by omega), if_neg hn, if_pos hlt]
  refine ⟨h2, ?_, fun hx => hspl hx, fun hx => (hwh hx).1⟩
  rw [hre, hpl, orr_some_eq]

theorem tiled_hW : Tiled hW [(⟨24, 24, 1⟩ : Blk)] [] := by
  refine ⟨rfl, by decide, by decide, by decide, by decide, by decide, by decide,
    ?_, rfl, trivial, List.nodup_nil, ?_⟩
  · exact seg.cons 24 25 24 1 [] 48 (by decide) (by decide) (by decide)
      (by decide) (by decide) (by decide) (by decide) (seg.nil 48)
  · intro q
    constructor
    · intro hq
      cases hq
    · rintro ⟨⟨b, hb, hb0, rfl⟩, -⟩
      simp only [List.mem_singleton] at hb
      subst hb
      exact absurd hb0 (by decide)

/-- Witness for `realloc_shrink_in_place`: on the hand-laid-out heap `hW`
(one live 24-byte block at payload 24, empty free list),
`reallocate(24, 1)` takes the shrink path — the adjusted size 16 is
strictly below 24 — and, the 8-byte remainder being under 16, keeps the
whole block and returns 24. -/
theorem realloc_shrink_in_place_witness :
    ∃ h2, mm_realloc hW 24 1 = RR.ok 24 h2 ∧
      (16 ≤ 24 - adjustRequest 1 →
        Tiled h2 ([(⟨24, adjustRequest 1, 1⟩ : Blk),
          (⟨24 + adjustRequest 1, 24 - adjustRequest 1, 0⟩ : Blk)])
          [24 + adjustRequest 1] ∧
        h2.free_startp = 24 + adjustRequest 1) ∧
      (24 - adjustRequest 1 < 16 → Tiled h2 [(⟨24, 24, 1⟩ : Blk)] []) :=
  @realloc_shrink_in_place hW [] [] [] 24 24 1 tiled_hW (by decide) (by decide)

theorem grow_tail {hD : Heap} {bs1 bs2 : List Blk} {fl : List Nat}
    {p cs ns sn : Nat}
    (ht : TiledX hD (bs1 ++ (⟨p, cs, 1⟩ : Blk) :: (⟨p + cs, ns, 0⟩ : Blk) :: bs2) fl [p + cs])
    (hpfl : p ∉ fl) (hnfl : p + cs ∉ fl)
    (hfm2 : ∀ x : Nat, x ∈ fl ↔ ∃ b : Blk, b ∈ bs1 ++ bs2 ∧ b.alloc = 0 ∧ b.addr = x)
    (hsn8 : sn % 8 = 0) (hsn16 : 16 ≤ sn) (hsns : sn ≤ ns + cs) :
    ∃ h2,
      (if ns + cs - sn ≥ 16 then
        orr (writeW hD (HDRP p) (PACK sn 1)) fun h =>
        orr (FTRP h p) fun f =>
        orr (writeW h f (PACK sn 1)) fun h =>
        orr (NEXT_BLKP h p) fun ptr2 =>
        orr (writeW h (HDRP ptr2) (PACK (ns + cs - sn) 0)) fun h =>
        orr (FTRP h ptr2) fun f2 =>
        orr (writeW h f2 (PACK (ns + cs - sn) 0)) fun h =>
        orr (mm_insert h ptr2) fun h =>
        orr (PREV_BLKP h ptr2) fun res =>
        RR.ok res h
      else
        orr (writeW hD (HDRP p) (PACK (ns + cs) 1)) fun h =>
        orr (FTRP h p) fun f =>
        orr (writeW h f (PACK (ns + cs) 1)) fun h =>
        RR.ok p h) = RR.ok p h2 ∧
      h2.brk = hD.brk ∧ h2.limit = hD.limit ∧ h2.heap_start = hD.heap_start ∧
      (16 ≤ ns + cs - sn →
        Tiled h2 (bs1 ++ (⟨p, sn, 1⟩ : Blk) :: (⟨p + sn, ns + cs - sn, 0⟩ : Blk) :: bs2)
          ((p + sn) :: fl) ∧
        h2.free_startp = p + sn) ∧
      (ns + cs - sn < 16 →
        Tiled h2 (bs1 ++ (⟨p, ns + cs, 1⟩ : Blk) :: bs2) fl) ∧
      (∀ x : Nat, (x + 4 ≤ p - 4 ∨ p + (ns + cs) - 4 ≤ x) →
        (∀ r ∈ fl, x ≠ r ∧ x ≠ r + 4) → readW h2 x = readW hD x) ∧
      (∀ x : Nat, x ≠ p - 4 → x ≠ p + sn - 8 → x ≠ p + sn - 4 → x ≠ p + (ns + cs) - 8 →
        x ≠ p + sn → x ≠ p + sn + 4 →
        (∀ r ∈ fl, x ≠ r ∧ x ≠ r + 4) → readW h2 x = readW hD x) := by
  classical
  have hmid1 : (⟨p, cs, 1⟩ : Blk) ∈
      bs1 ++ (⟨p, cs, 1⟩ : Blk) :: (⟨p + cs, ns, 0⟩ : Blk) :: bs2 := by simp
  have hmid2 : (⟨p + cs, ns, 0⟩ : Blk) ∈
      bs1 ++ (⟨p, cs, 1⟩ : Blk) :: (⟨p + cs, ns, 0⟩ : Blk) :: bs2 := by simp
  have hmidf1 := ht.block_facts hmid1
  have hmidf2 := ht.block_facts hmid2
  have hp24 : 24 ≤ p := hmidf1.1
  have hcs16 : 16 ≤ cs := hmidf1.2.2.1
  have hcs8 : cs % 8 = 0 := hmidf1.2.2.2.1
  have hp8 : p % 8 = 0 := hmidf1.2.2.2.2
  have hnend : p + cs + ns ≤ hD.brk := hmidf2.2.1
  have hns16 : 16 ≤ ns := hmidf2.2.2.1
  have hns8 : ns % 8 = 0 := hmidf2.2.2.2.1
  have hbrk32 := ht.brk32
  have ht2 : TiledX hD ((bs1 ++ [(⟨p, cs, 1⟩ : Blk)]) ++ (⟨p + cs, ns, 0⟩ : Blk) :: bs2)
      fl [p + cs] := by
    rw [List.append_assoc]
    exact ht
  obtain ⟨m, hseg1, hseg2⟩ := seg_append_inv ht.blocks
  have hpm : p = m := seg_cons_inv hseg2 |>.1
  have hrest1 : seg hD (m + cs) ((⟨p + cs, ns, 0⟩ : Blk) :: bs2) hD.brk :=
    (seg_cons_inv hseg2).2.2.2.2.2
  rw [← hpm] at hseg1 hrest1
  have hrest : seg hD (p + cs + ns) bs2 hD.brk := (seg_cons_inv hrest1).2.2.2.2.2
  have hbs1out : ∀ b : Blk, b ∈ bs1 → b.addr + b.size ≤ p := by
    intro b hb
    have := seg_mem_bounds hseg1 hb
    omega
  have hbs2out : ∀ b : Blk, b ∈ bs2 → p + cs + ns ≤ b.addr := by
    intro b hb
    have := seg_mem_bounds hrest hb
    omega
  have hlinkout : ∀ r ∈ fl, ∀ x : Nat, p ≤ x + 4 → x ≤ p + (ns + cs) - 8 →
      x ≠ r ∧ x ≠ r + 4 := by
    intro r hr x h1 h2
    have hrf := ht.fl_facts hr
    by_cases hc1 : x ≤ p + cs - 8
    · exact tiled_span_not_link ht hr (fun he => hpfl (he ▸ hr)) h1 hc1
    · by_cases hc2 : p + cs ≤ x + 4
      · exact tiled_span_not_link ht2 hr (fun he => hnfl (he ▸ hr)) hc2 (by omega)
      · omega
  by_cases hsplit : ns + cs - sn ≥ 16
  · rw [if_pos hsplit]
    obtain ⟨hA, hw1⟩ := writeW_ex (h := hD) (a := p - 4) (PACK sn 1)
      (by omega) (by omega) (by omega)
    obtain ⟨hAbrk, hAlim, hAhs, hAfs⟩ := writeW_fields hw1
    have hw1v : readW hA (p - 4) = some (PACK sn 1) := readW_writeW_self hw1
    have hHD : HDRP p = p - 4 := rfl
    rw [hHD, hw1, orr_some_eq]
    have hftrA : FTRP hA p = some (p + sn - 8) := by
      rw [FTRP, HDRP, hw1v, obind_some_eq, GET_SIZE_PACK hsn8 (by omega)]
    rw [hftrA, orr_some_eq]
    obtain ⟨hB, hw2⟩ := writeW_ex (h := hA) (a := p + sn - 8) (PACK sn 1)
      (by omega) (by omega) (by omega)
    obtain ⟨hBbrk, hBlim, hBhs, hBfs⟩ := writeW_fields hw2
    rw [hw2, orr_some_eq]
    have hrdB : readW hB (p - 4) = some (PACK sn 1) :=
      (readW_writeW_ne hw2 (by omega)).trans hw1v
    have hnxB : NEXT_BLKP hB p = some (p + sn) := by
      rw [NEXT_BLKP, HDRP, hrdB, obind_some_eq, GET_SIZE_PACK hsn8 (by omega)]
    rw [hnxB, orr_some_eq]
    have hHD2 : HDRP (p + sn) = p + sn - 4 := rfl
    rw [hHD2]
    obtain ⟨hC, hw3⟩ := writeW_ex (h := hB) (a := p + sn - 4) (PACK (ns + cs - sn) 0)
      (by omega) (by omega) (by omega)
    obtain ⟨hCbrk, hClim, hChs, hCfs⟩ := writeW_fields hw3
    rw [hw3, orr_some_eq]
    have hrsn8 : (ns + cs - sn) % 8 = 0 := by omega
    have hw3v : readW hC (p + sn - 4) = some (PACK (ns + cs - sn) 0) := readW_writeW_self hw3
    have hftrC : FTRP hC (p + sn) = some (p + (ns + cs) - 8) := by
      rw [FTRP, HDRP, hw3v, obind_some_eq, GET_SIZE_PACK hrsn8 (by omega)]
      congr 1
      omega
    rw [hftrC, orr_some_eq]
    obtain ⟨hW2, hw4⟩ := writeW_ex (h := hC) (a := p + (ns + cs) - 8) (PACK (ns + cs - sn) 0)
      (by omega) (by omega) (by omega)
    obtain ⟨hWbrk, hWlim, hWhs, hWfs⟩ := writeW_fields hw4
    rw [hw4, orr_some_eq]
    have hra4 : ∀ x : Nat, x ≠ p - 4 → x ≠ p + sn - 8 → x ≠ p + sn - 4 →
        x ≠ p + (ns + cs) - 8 → readW hW2 x = readW hD x := by
      intro x h1 h2 h3 h4
      exact (((readW_writeW_ne hw4 h4).trans (readW_writeW_ne hw3 h3)).trans
        (readW_writeW_ne hw2 h2)).trans (readW_writeW_ne hw1 h1)
    have hbrkW : hW2.brk = hD.brk := by rw [hWbrk, hCbrk, hBbrk, hAbrk]
    have hhsW : hW2.heap_start = hD.heap_start := by rw [hWhs, hChs, hBhs, hAhs]
    have hfsW : hW2.free_startp = hD.free_startp := by rw [hWfs, hCfs, hBfs, hAfs]
    have hlimW : hW2.limit = hD.limit := by rw [hWlim, hClim, hBlim, hAlim]
    have hrdW_h1 : readW hW2 (p - 4) = some (PACK sn 1) := by
      rw [readW_writeW_ne hw4 (by omega), readW_writeW_ne hw3 (by omega)]
      exact hrdB
    have hrdW_f1 : readW hW2 (p + sn - 8) = some (PACK sn 1) := by
      rw [readW_writeW_ne hw4 (by omega), readW_writeW_ne hw3 (by omega)]
      exact readW_writeW_self hw2
    have hrdW_h2 : readW hW2 (p + sn - 4) = some (PACK (ns + cs - sn) 0) := by
      rw [readW_writeW_ne hw4 (by omega)]
      exact hw3v
    have hrdW_f2 : readW hW2 (p + (ns + cs) - 8) = some (PACK (ns + cs - sn) 0) :=
      readW_writeW_self hw4
    have segbs1W : seg hW2 24 bs1 p := by
      refine seg_frame hseg1 fun b hb => ?_
      have hbb := seg_mem_bounds hseg1 hb
      exact ⟨hra4 _ (by omega) (by omega) (by omega) (by omega),
        hra4 _ (by omega) (by omega) (by omega) (by omega)⟩
    have segbs2W : seg hW2 (p + cs + ns) bs2 hD.brk := by
      refine seg_frame hrest fun b hb => ?_
      have hbb := seg_mem_bounds hrest hb
      exact ⟨hra4 _ (by omega) (by omega) (by omega) (by omega),
        hra4 _ (by omega) (by omega) (by omega) (by omega)⟩
    have hsegmid : seg hW2 p ((⟨p, sn, 1⟩ : Blk) :: (⟨p + sn, ns + cs - sn, 0⟩ : Blk) :: bs2)
        hD.brk := by
      refine seg.cons p (PACK sn 1) sn 1 _ _ hrdW_h1 (GET_SIZE_PACK hsn8 (by omega))
        (GET_ALLOC_PACK hsn8 (by omega)) hsn16 hsn8 hp8 hrdW_f1 ?_
      refine seg.cons (p + sn) (PACK (ns + cs - sn) 0) (ns + cs - sn) 0 _ _
        hrdW_h2 (GET_SIZE_PACK hrsn8 (by omega)) (GET_ALLOC_PACK hrsn8 (by omega))
        hsplit hrsn8 (by omega) ?_ ?_
      · have he : p + sn + (ns + cs - sn) - 8 = p + (ns + cs) - 8 := by omega
        rw [he]
        exact hrdW_f2
      · have he : p + sn + (ns + cs - sn) = p + cs + ns := by omega
        rw [he]
        exact segbs2W
    have hflrW : ∀ r ∈ fl, readW hW2 r = readW hD r := by
      intro r hr
      refine hra4 r ?_ ?_ ?_ ?_
      · exact Ne.symm (hlinkout r hr (p - 4) (by omega) (by omega)).1
      · exact Ne.symm (hlinkout r hr (p + sn - 8) (by omega) (by omega)).1
      · exact Ne.symm (hlinkout r hr (p + sn - 4) (by omega) (by omega)).1
      · exact Ne.symm (hlinkout r hr (p + (ns + cs) - 8) (by omega) (by omega)).1
    have hflr4W : ∀ r ∈ fl, readW hW2 (r + 4) = readW hD (r + 4) := by
      intro r hr
      refine hra4 (r + 4) ?_ ?_ ?_ ?_
      · exact Ne.symm (hlinkout r hr (p - 4) (by omega) (by omega)).2
      · exact Ne.symm (hlinkout r hr (p + sn - 8) (by omega) (by omega)).2
      · exact Ne.symm (hlinkout r hr (p + sn - 4) (by omega) (by omega)).2
      · exact Ne.symm (hlinkout r hr (p + (ns + cs) - 8) (by omega) (by omega)).2
    have htW : TiledX hW2
        (bs1 ++ (⟨p, sn, 1⟩ : Blk) :: (⟨p + sn, ns + cs - sn, 0⟩ : Blk) :: bs2)
        fl [p + sn] := by
      refine ⟨by rw [hhsW]; exact ht.hs16, by rw [hbrkW]; exact ht.brk8,
        by rw [hbrkW]; exact ht.brk_lo, by rw [hbrkW]; exact ht.brk32,
        (hra4 12 (by omega) (by omega) (by omega) (by omega)).trans ht.prol_h,
        (hra4 16 (by omega) (by omega) (by omega) (by omega)).trans ht.prol_f,
        ?_, ?_, ?_, ?_, ht.flnodup, ?_⟩
      · rw [hbrkW]
        exact (hra4 (hD.brk - 4) (by omega) (by omega) (by omega) (by omega)).trans ht.epil
      · rw [hbrkW]
        simpa using seg_append segbs1W hsegmid
      · rw [hfsW]
        exact flChain_frame ht.flw fun r hr => hflrW r hr
      · exact prevOk_frame ht.flprev fun r hr => hflr4W r hr
      · intro x
        rw [hfm2 x]
        constructor
        · rintro ⟨b, hbm, hb0, rfl⟩
          refine ⟨⟨b, ?_, hb0, rfl⟩, ?_⟩
          · rcases List.mem_append.mp hbm with h1 | h2
            · exact List.mem_append.mpr (Or.inl h1)
            · exact List.mem_append.mpr (Or.inr (by simp [h2]))
          · simp only [List.mem_singleton]
            intro he
            rcases List.mem_append.mp hbm with h1 | h2
            · have := hbs1out b h1
              omega
            · have := hbs2out b h2
              omega
        · rintro ⟨⟨b, hbm, hb0, rfl⟩, hxex⟩
          rcases List.mem_append.mp hbm with h1 | h2
          · exact ⟨b, List.mem_append.mpr (Or.inl h1), hb0, rfl⟩
          · rcases List.mem_cons.mp h2 with rfl | h3
            · simp at hb0
            · rcases List.mem_cons.mp h3 with rfl | h4
              · exact absurd (by simp : p + sn ∈ [p + sn]) (by simpa using hxex)
              · exact ⟨b, List.mem_append.mpr (Or.inr h4), hb0, rfl⟩
    obtain ⟨h2I, hins, hbrk2, hlim2, hhs2, hfs2, htF, hfrI⟩ :=
      mm_insert_spec htW ⟨⟨p + sn, ns + cs - sn, 0⟩, by simp, rfl, rfl⟩ (by simp)
    rw [hins, orr_some_eq]
    have hfoot2 : readW h2I (p + sn - 8) = some (PACK sn 1) := by
      rw [hfrI (p + sn - 8) (by omega) (by omega)
        (fun r hr => hlinkout r hr _ (by omega) (by omega))]
      exact hrdW_f1
    have hprev : PREV_BLKP h2I (p + sn) = some p := by
      rw [PREV_BLKP, hfoot2, obind_some_eq, GET_SIZE_PACK hsn8 (by omega)]
      congr 1
      omega
    rw [hprev, orr_some_eq]
    refine ⟨h2I, rfl, hbrk2.trans hbrkW, hlim2.trans hlimW, hhs2.trans hhsW,
      fun _ => ⟨htF, hfs2⟩, fun hlt => absurd hsplit (by omega), ?_, ?_⟩
    · intro x hxout hxfl
      have hstep : readW h2I x = readW hW2 x := by
        refine hfrI x (by omega) (by omega) fun r hr => hxfl r hr
      rw [hstep]
      exact hra4 x (by omega) (by omega) (by omega) (by omega)
    · intro x h1 h2x h3 h4 h5 h6 hxfl
      have hstep : readW h2I x = readW hW2 x := by
        refine hfrI x h5 h6 fun r hr => hxfl r hr
      rw [hstep]
      exact hra4 x h1 h2x h3 h4
  · rw [if_neg hsplit]
    have hs8 : (ns + cs) % 8 = 0 := by omega
    obtain ⟨hA, hw1⟩ := writeW_ex (h := hD) (a := p - 4) (PACK (ns + cs) 1)
      (by omega) (by omega) (by omega)
    obtain ⟨hAbrk, hAlim, hAhs, hAfs⟩ := writeW_fields hw1
    have hw1v : readW hA (p - 4) = some (PACK (ns + cs) 1) := readW_writeW_self hw1
    have hHD : HDRP p = p - 4 := rfl
    rw [hHD, hw1, orr_some_eq]
    have hftrA : FTRP hA p = some (p + (ns + cs) - 8) := by
      rw [FTRP, HDRP, hw1v, obind_some_eq, GET_SIZE_PACK hs8 (by omega)]
    rw [hftrA, orr_some_eq]
    obtain ⟨hB, hw2⟩ := writeW_ex (h := hA) (a := p + (ns + cs) - 8) (PACK (ns + cs) 1)
      (by omega) (by omega) (by omega)
    obtain ⟨hBbrk, hBlim, hBhs, hBfs⟩ := writeW_fields hw2
    rw [hw2, orr_some_eq]
    have hra2 : ∀ x : Nat, x ≠ p - 4 → x ≠ p + (ns + cs) - 8 →
        readW hB x = readW hD x := by
      intro x h1 h2
      exact (readW_writeW_ne hw2 h2).trans (readW_writeW_ne hw1 h1)
    have hbrkB : hB.brk = hD.brk := by rw [hBbrk, hAbrk]
    have hhsB : hB.heap_start = hD.heap_start := by rw [hBhs, hAhs]
    have hfsB : hB.free_startp = hD.free_startp := by rw [hBfs, hAfs]
    have hlimB : hB.limit = hD.limit := by rw [hBlim, hAlim]
    have hrdB_h : readW hB (p - 4) = some (PACK (ns + cs) 1) := by
      rw [readW_writeW_ne hw2 (by omega)]
      exact hw1v
    have hrdB_f : readW hB (p + (ns + cs) - 8) = some (PACK (ns + cs) 1) :=
      readW_writeW_self hw2
    have segbs1B : seg hB 24 bs1 p := by
      refine seg_frame hseg1 fun b hb => ?_
      have hbb := seg_mem_bounds hseg1 hb
      exact ⟨hra2 _ (by omega) (by omega), hra2 _ (by omega) (by omega)⟩
    have segbs2B : seg hB (p + cs + ns) bs2 hD.brk := by
      refine seg_frame hrest fun b hb => ?_
      have hbb := seg_mem_bounds hrest hb
      exact ⟨hra2 _ (by omega) (by omega), hra2 _ (by omega) (by omega)⟩
    have hsegmid : seg hB p ((⟨p, ns + cs, 1⟩ : Blk) :: bs2) hD.brk := by
      refine seg.cons p (PACK (ns + cs) 1) (ns + cs) 1 _ _ hrdB_h
        (GET_SIZE_PACK hs8 (by omega)) (GET_ALLOC_PACK hs8 (by omega))
        (by omega) hs8 hp8 hrdB_f ?_
      have he : p + (ns + cs) = p + cs + ns := by omega
      rw [he]
      exact segbs2B
    have hflrB : ∀ r ∈ fl, readW hB r = readW hD r := by
      intro r hr
      refine hra2 r ?_ ?_
      · exact Ne.symm (hlinkout r hr (p - 4) (by omega) (by omega)).1
      · exact Ne.symm (hlinkout r hr (p + (ns + cs) - 8) (by omega) (by omega)).1
    have hflr4B : ∀ r ∈ fl, readW hB (r + 4) = readW hD (r + 4) := by
      intro r hr
      refine hra2 (r + 4) ?_ ?_
      · exact Ne.symm (hlinkout r hr (p - 4) (by omega) (by omega)).2
      · exact Ne.symm (hlinkout r hr (p + (ns + cs) - 8) (by omega) (by omega)).2
    have htB : TiledX hB (bs1 ++ (⟨p, ns + cs, 1⟩ : Blk) :: bs2) fl [] := by
      refine ⟨by rw [hhsB]; exact ht.hs16, by rw [hbrkB]; exact ht.brk8,
        by rw [hbrkB]; exact ht.brk_lo, by rw [hbrkB]; exact ht.brk32,
        (hra2 12 (by omega) (by omega)).trans ht.prol_h,
        (hra2 16 (by omega) (by omega)).trans ht.prol_f,
        ?_, ?_, ?_, ?_, ht.flnodup, ?_⟩
      · rw [hbrkB]
        exact (hra2 (hD.brk - 4) (by omega) (by omega)).trans ht.epil
      · rw [hbrkB]
        exact seg_append segbs1B hsegmid
      · rw [hfsB]
        exact flChain_frame ht.flw fun r hr => hflrB r hr
      · exact prevOk_frame ht.flprev fun r hr => hflr4B r hr
      · intro x
        rw [hfm2 x]
        constructor
        · rintro ⟨b, hbm, hb0, rfl⟩
          refine ⟨⟨b, ?_, hb0, rfl⟩, by simp⟩
          rcases List.mem_append.mp hbm with h1 | h2
          · exact List.mem_append.mpr (Or.inl h1)
          · exact List.mem_append.mpr (Or.inr (by simp [h2]))
        · rintro ⟨⟨b, hbm, hb0, rfl⟩, -⟩
          rcases List.mem_append.mp hbm with h1 | h2
          · exact ⟨b, List.mem_append.mpr (Or.inl h1), hb0, rfl⟩
          · rcases List.mem_cons.mp h2 with rfl | h3
            · simp at hb0
            · exact ⟨b, List.mem_append.mpr (Or.inr h3), hb0, rfl⟩
    refine ⟨hB, rfl, hbrkB, hlimB, hhsB, fun h16 => absurd h16 hsplit,
      fun _ => htB, ?_, ?_⟩
    · intro x hxout hxfl
      exact hra2 x (by omega) (by omega)
    · intro x h1 h2x h3 h4 h5 h6 hxfl
      exact hra2 x h1 h4

/-- C6 (corrected): the source grows into the free right neighbor only when
the combined size is STRICTLY larger than the adjusted size
(`new_size > size`); under that strict inequality — and when the request
does not already hit one of the earlier fast paths (`copySize != size`,
`size != 0`, no shrink) — `mm_realloc` removes the neighbor from the free
list, merges it into the block, splits off a tail remainder into the free
list exactly when it reaches 16 bytes, and returns the original payload
address (the source's `PREV_BLKP` of the advanced pointer resolves to it). -/
theorem realloc_grow_into_next {h : Heap} {bs1 bs2 : List Blk} {fl1 fl2 : List Nat}
    {p cs ns n : Nat}
    (ht : Tiled h (bs1 ++ (⟨p, cs, 1⟩ : Blk) :: (⟨p + cs, ns, 0⟩ : Blk) :: bs2)
      (fl1 ++ (p + cs) :: fl2))
    (hn : n ≠ 0) (hcsn : cs ≠ n)
    (hge : cs ≤ adjustRequest n) (hlt : adjustRequest n < ns + cs) :
    ∃ h2, mm_realloc h p n = RR.ok p h2 ∧
      (16 ≤ ns + cs - adjustRequest n →
        Tiled h2 (bs1 ++ (⟨p, adjustRequest n, 1⟩ : Blk) ::
          (⟨p + adjustRequest n, ns + cs - adjustRequest n, 0⟩ : Blk) :: bs2)
          ((p + adjustRequest n) :: (fl1 ++ fl2)) ∧
        h2.free_startp = p + adjustRequest n) ∧
      (ns + cs - adjustRequest n < 16 →
        Tiled h2 (bs1 ++ (⟨p, ns + cs, 1⟩ : Blk) :: bs2) (fl1 ++ fl2)) := by
  classical
  obtain ⟨h16a, h8a, hn8a⟩ := adjustRequest_facts n
  have htX : TiledX h (bs1 ++ (⟨p, cs, 1⟩ : Blk) :: (⟨p + cs, ns, 0⟩ : Blk) :: bs2)
      (fl1 ++ (p + cs) :: fl2) [] := ht
  have hmid1 : (⟨p, cs, 1⟩ : Blk) ∈
      bs1 ++ (⟨p, cs, 1⟩ : Blk) :: (⟨p + cs, ns, 0⟩ : Blk) :: bs2 := by simp
  have hmid2 : (⟨p + cs, ns, 0⟩ : Blk) ∈
      bs1 ++ (⟨p, cs, 1⟩ : Blk) :: (⟨p + cs, ns, 0⟩ : Blk) :: bs2 := by simp
  have hmf1 := htX.block_facts hmid1
  have hmf2 := htX.block_facts hmid2
  have hp24 : 24 ≤ p := hmf1.1
  have hcs16 : 16 ≤ cs := hmf1.2.2.1
  have hns16 : 16 ≤ ns := hmf2.2.2.1
  obtain ⟨w, hrd, hszw, hgalw, -⟩ := seg_mem_read htX.blocks hmid1
  obtain ⟨nv, hrdn, hszn, hgaln, -⟩ := seg_mem_read htX.blocks hmid2
  have hrdH : readW h (HDRP p) = some w := hrd
  have hrdnH : readW h (HDRP (p + cs)) = some nv := hrdn
  have hszw2 : GET_SIZE w = cs := hszw
  have hszn2 : GET_SIZE nv = ns := hszn
  have hgaln2 : GET_ALLOC nv = 0 := hgaln
  have hrdH4 : readW h (p - 4) = some w := hrd
  have hNX : NEXT_BLKP h p = some (p + cs) := by
    rw [NEXT_BLKP, HDRP, hrdH4, obind_some_eq, hszw2]
  have hre : mm_realloc h p n =
      (if ns + cs - adjustRequest n ≥ 16 then
        reallocGrowSplit h p (p + cs) (adjustRequest n) (ns + cs - adjustRequest n)
      else
        reallocGrowWhole h p (p + cs) (ns + cs)) := by
    rw [mm_realloc, hrdH, orr_some_eq]
    simp only [hszw2]
    rw [if_neg (show ¬ cs = n from hcsn), if_neg hn,
      if_neg (show ¬ adjustRequest n < cs from not_lt.mpr hge),
      hNX, orr_some_eq, hrdnH, orr_some_eq]
    simp only [hgaln2, hszn2]
    rw [if_pos (show True ∧ ns + cs > adjustRequest n ∧ ns ≠ 0 from
      ⟨trivial, by omega, by omega⟩)]
  obtain ⟨m, hseg1, hseg2⟩ := seg_append_inv htX.blocks
  have hpm : p = m := seg_cons_inv hseg2 |>.1
  have hrest1 : seg h (m + cs) ((⟨p + cs, ns, 0⟩ : Blk) :: bs2) h.brk :=
    (seg_cons_inv hseg2).2.2.2.2.2
  rw [← hpm] at hseg1 hrest1
  have hrest : seg h (p + cs + ns) bs2 h.brk := (seg_cons_inv hrest1).2.2.2.2.2
  have hbs1out : ∀ b : Blk, b ∈ bs1 → b.addr + b.size ≤ p := by
    intro b hb
    have := seg_mem_bounds hseg1 hb
    omega
  have hbs2out : ∀ b : Blk, b ∈ bs2 → p + cs + ns ≤ b.addr := by
    intro b hb
    have := seg_mem_bounds hrest hb
    omega
  obtain ⟨hnd1, hnd2, hdisj⟩ := List.nodup_append.mp htX.flnodup
  have hnfl : p + cs ∉ fl1 ++ fl2 := by
    intro hx
    rcases List.mem_append.mp hx with h1 | h2
    · exact hdisj h1 (by simp)
    · exact (List.nodup_cons.mp hnd2).1 h2
  have hpfl : p ∉ fl1 ++ fl2 := by
    intro hx
    have hx2 : p ∈ fl1 ++ (p + cs) :: fl2 := by
      rcases List.mem_append.mp hx with h1 | h2
      · exact List.mem_append.mpr (Or.inl h1)
      · exact List.mem_append.mpr (Or.inr (by simp [h2]))
    obtain ⟨b, hbm, hb0, hba⟩ := htX.fl_block hx2
    have hbf := htX.block_facts hbm
    rcases blocks_span_disjoint htX.blocks rfl hbm with he | hl | hg
    · rw [he] at hb0
      exact absurd (show (1 : Nat) = 0 from hb0) (by decide)
    · have hl2 : b.addr + b.size ≤ p := hl
      omega
    · have hg2 : p + cs ≤ b.addr := hg
      omega
  obtain ⟨hD, hdel, hDbrk, hDlim, hDhs, htD, hdfr⟩ := mm_delete_spec htX
  have hfm2 : ∀ x : Nat, x ∈ fl1 ++ fl2 ↔
      ∃ b : Blk, b ∈ bs1 ++ bs2 ∧ b.alloc = 0 ∧ b.addr = x := by
    intro x
    rw [htD.flmem x]
    constructor
    · rintro ⟨⟨b, hbm, hb0, rfl⟩, hxex⟩
      rcases List.mem_append.mp hbm with h1 | h2
      · exact ⟨b, List.mem_append.mpr (Or.inl h1), hb0, rfl⟩
      · rcases List.mem_cons.mp h2 with rfl | h3
        · exact absurd (show (1 : Nat) = 0 from hb0) (by decide)
        · rcases List.mem_cons.mp h3 with rfl | h4
          · exact absurd (show p + cs ∈ [p + cs] by simp) (by simpa using hxex)
          · exact ⟨b, List.mem_append.mpr (Or.inr h4), hb0, rfl⟩
    · rintro ⟨b, hbm, hb0, rfl⟩
      have hbf : 16 ≤ b.size := by
        rcases List.mem_append.mp hbm with h1 | h2
        · exact (htX.block_facts (List.mem_append.mpr (Or.inl h1))).2.2.1
        · exact (htX.block_facts (List.mem_append.mpr (Or.inr (by simp [h2])))).2.2.1
      refine ⟨⟨b, ?_, hb0, rfl⟩, ?_⟩
      · rcases List.mem_append.mp hbm with h1 | h2
        · exact List.mem_append.mpr (Or.inl h1)
        · exact List.mem_append.mpr (Or.inr (by simp [h2]))
      · simp only [List.mem_singleton]
        intro he
        rcases List.mem_append.mp hbm with h1 | h2
        · have := hbs1out b h1
          omega
        · have := hbs2out b h2
          omega
  obtain ⟨h2, hgt_eq, hbrk2, hlim2, hhs2, hsplc, hwhc, hfr, hfrP⟩ :=
    grow_tail htD hpfl hnfl hfm2 h8a h16a (by omega)
  by_cases hrem : ns + cs - adjustRequest n ≥ 16
  · rw [if_pos hrem] at hgt_eq
    refine ⟨h2, ?_, fun hx => hsplc hx, fun hx => absurd hrem (by omega)⟩
    rw [hre, if_pos hrem, reallocGrowSplit, hdel, orr_some_eq]
    exact hgt_eq
  · rw [if_neg hrem] at hgt_eq
    refine ⟨h2, ?_, fun hx => absurd hx hrem, fun hx => hwhc hx⟩
    rw [hre, if_neg hrem, reallocGrowWhole, hdel, orr_some_eq]
    exact hgt_eq

theorem tiled_hV : Tiled hV [(⟨24, 16, 1⟩ : Blk), (⟨40, 24, 0⟩ : Blk)] [40] := by
  refine ⟨rfl, by decide, by decide, by decide, by decide, by decide, by decide,
    ?_, ?_, ?_, by decide, ?_⟩
  · exact seg.cons 24 17 16 1 _ _ (by decide) (by decide) (by decide) (by decide)
      (by decide) (by decide) (by decide)
      (seg.cons 40 24 24 0 _ _ (by decide) (by decide) (by decide) (by decide)
        (by decide) (by decide) (by decide) (seg.nil 64))
  · exact ⟨rfl, by decide, 0, by decide, rfl⟩
  · exact ⟨by decide, trivial⟩
  · intro q
    constructor
    · intro hq
      simp only [List.mem_singleton] at hq
      subst hq
      exact ⟨⟨⟨40, 24, 0⟩, by simp, rfl, rfl⟩, by simp⟩
    · rintro ⟨⟨b, hb, hb0, rfl⟩, -⟩
      rcases List.mem_cons.mp hb with rfl | hb2
      · exact absurd hb0 (by decide)
      · rcases List.mem_cons.mp hb2 with rfl | hb3
        · simp
        · cases hb3

/-- Witness for `realloc_grow_into_next`: on the hand-laid-out heap `hV`
(a live 16-byte block at payload 24 followed by a free 24-byte block at
40), `reallocate(24, 20)` has adjusted size 32 ≤ 16 + 24 = 40;
the 8-byte remainder being under 16, the whole neighbor is absorbed and
the call returns 24. -/
theorem realloc_grow_into_next_witness :
    ∃ h2, mm_realloc hV 24 20 = RR.ok 24 h2 ∧
      (16 ≤ 24 + 16 - adjustRequest 20 →
        Tiled h2 [(⟨24, adjustRequest 20, 1⟩ : Blk),
          (⟨24 + adjustRequest 20, 24 + 16 - adjustRequest 20, 0⟩ : Blk)]
          [24 + adjustRequest 20] ∧
        h2.free_startp = 24 + adjustRequest 20) ∧
      (24 + 16 - adjustRequest 20 < 16 → Tiled h2 [(⟨24, 24 + 16, 1⟩ : Blk)] []) :=
  @realloc_grow_into_next hV [] [] [] [] 24 16 24 20 tiled_hV (by decide) (by decide)
    (by decide) (by decide)

theorem mallocFst_zero {h : Heap} {sz : Nat} (hm : mallocFst h sz = some 0) :
    ∃ h2, mm_malloc h sz = some (0, h2) := by
  cases hmm : mm_malloc h sz with
  | none =>
    rw [mallocFst, hmm] at hm
    exact absurd hm (by simp [obind])
  | some r =>
    cases r with
    | mk a b =>
      simp only [mallocFst, hmm, obind_some_eq] at hm
      have h1 : a = 0 := Option.some.inj hm
      subst h1
      exact ⟨b, rfl⟩

/-- C1 (corrected): on the fallback path of `mm_realloc`, when the internal
`mm_malloc` returns `NULL`, the call does NOT return `NULL` to the caller:
the source prints an error message and calls `exit(1)`, modelled as
`RR.exited 1`. -/
theorem realloc_alloc_failure_exits {h : Heap} {p n cs nbp w nv : Nat}
    (hrd : readW h (HDRP p) = some w) (hsz : GET_SIZE w = cs)
    (hcs : cs ≠ n) (hn : n ≠ 0) (hsh : ¬ adjustRequest n < cs)
    (hnx : NEXT_BLKP h p = some nbp) (hrdn : readW h (HDRP nbp) = some nv)
    (hgrow : ¬ (GET_ALLOC nv = 0 ∧ GET_SIZE nv + cs > adjustRequest n ∧ GET_SIZE nv ≠ 0))
    (hmal : mallocFst h (adjustRequest n) = some 0) :
    mm_realloc h p n = RR.exited 1 := by
  obtain ⟨h2, hmm⟩ := mallocFst_zero hmal
  rw [mm_realloc, hrd, orr_some_eq]
  simp only [hsz]
  rw [if_neg hcs, if_neg hn, if_neg hsh, hnx, orr_some_eq, hrdn, orr_some_eq,
    if_neg hgrow, reallocFallback, hmm, orr_some_eq]
  rfl

/-- Witness for `realloc_alloc_failure_exits`: on the exhausted heap `hT1`,
`reallocate(24, 5000)` hits the fallback, the internal allocation fails,
and the call exits with status 1. -/
theorem realloc_alloc_failure_exits_witness :
    mm_realloc hT1 24 5000 = RR.exited 1 :=
  @realloc_alloc_failure_exits hT1 24 5000 4096 4120 4097 1 (by decide) (by decide)
    (by decide) (by decide) (by decide) (by decide) (by decide) (by decide) (by decide)

end MM
